import Mathlib

/-!
# Leader_Followers thread pool (`threadpool.c`)

A shallow embedding of the bounded-queue thread pool.  Every stretch of code
that runs while the pool mutex is held is one function on the shared state;
`pthread_cond_wait` ends such a stretch (it releases the mutex) and the waiting
thread later re-runs the loop test.  The concurrent program is the step
function `step` over `Sys`, which interleaves those stretches in any order.
Pointers are natural numbers with `0` for `NULL`; C `int`s are integers with
32-bit wrap-around on `++`, `--` and `-`.
-/

namespace Threadpool

/-! ## Data model -/

/-- The record `struct job`: a callback pointer, its argument pointer and the
link to the next record (`0` is `NULL`). -/
structure job where
  callback_function : Nat
  arg : Nat
  next : Nat
  deriving DecidableEq

/-- The allocated `struct job` records, keyed by address (at most one entry per address). -/
abbrev Heap := List (Nat × job)

/-- Load of the record at address `p`; `none` when nothing is allocated there. -/
def read : Heap → Nat → Option job
  | [], _ => none
  | (a, j) :: rest, p => if a = p then some j else read rest p

/-- Release of the record at address `p` (`free`). -/
def free_job (mem : Heap) (p : Nat) : Heap :=
  mem.filter (fun e => decide (e.1 ≠ p))

/-- Store of record `j` at address `p`. -/
def write (mem : Heap) (p : Nat) (j : job) : Heap :=
  (p, j) :: free_job mem p

/-- Largest value of a C `int`. -/
def INT_MAX : Int := 2147483647

/-- Smallest value of a C `int`. -/
def INT_MIN : Int := -2147483648

/-- Result of an `int` operation, reduced to the 32-bit two's-complement range. -/
def wrap (x : Int) : Int := (x + 2147483648) % 4294967296 - 2147483648

/-- The shared fields of `struct threadpool` that the mutex protects, together
with the heap of job records hanging off `head`. -/
structure threadpool where
  thread_num : Int
  queue_max_num : Int
  queue_cur_num : Int
  head : Nat
  tail : Nat
  queue_close : Int
  pool_close : Int
  mem : Heap
  deriving DecidableEq

/-- The three condition variables of the pool. -/
inductive Cond where
  | queue_empty
  | queue_not_empty
  | queue_not_full
  deriving DecidableEq

/-- A wake-up issued on a condition variable. -/
inductive Wake where
  | signal (c : Cond)
  | broadcast (c : Cond)
  deriving DecidableEq

/-! ## `threadpool_add_job` -/

/-- What one locked pass of `threadpool_add_job` ends in. -/
inductive AddResult where
  /-- one of the three `assert`s failed -/
  | abort
  /-- `pthread_cond_wait(queue_not_full)`: mutex released, nothing written -/
  | wait
  /-- the call returned `code`, leaving the pool as `pool` after issuing `ev` -/
  | ret (code : Int) (pool : threadpool) (ev : List Wake)
  /-- a dereference of `NULL` or of unallocated memory -/
  | fault
  deriving DecidableEq

/-- One pass of `threadpool_add_job` from taking the mutex (or waking inside
`pthread_cond_wait`) to releasing it.  `m` is what `malloc` returns if it is
called (`0` for failure). -/
def threadpool_add_job (pool : threadpool) (callback_function arg : Nat) (m : Nat) : AddResult :=
  if callback_function = 0 ∨ arg = 0 then .abort
  else if pool.queue_cur_num = pool.queue_max_num
      ∧ ¬ (pool.queue_close ≠ 0 ∨ pool.pool_close ≠ 0) then .wait
  else if pool.queue_close ≠ 0 ∨ pool.pool_close ≠ 0 then .ret (-1) pool []
  else if m = 0 then .ret (-1) pool []
  else
    let mem1 := write pool.mem m { callback_function := callback_function, arg := arg, next := 0 }
    if pool.head = 0 then
      .ret 0 { pool with mem := mem1, head := m, tail := m,
                         queue_cur_num := wrap (pool.queue_cur_num + 1) }
        [Wake.broadcast Cond.queue_not_empty]
    else if pool.tail = 0 then .fault
    else
      match read mem1 pool.tail with
      | none => .fault
      | some t =>
        .ret 0 { pool with mem := write mem1 pool.tail { t with next := m }, tail := m,
                           queue_cur_num := wrap (pool.queue_cur_num + 1) } []

/-! ## `threadpool_function` -/

/-- What one locked pass of the worker loop ends in. -/
inductive WorkResult where
  /-- `pthread_cond_wait(queue_not_empty)` -/
  | wait
  /-- `pthread_exit` after seeing `pool_close` -/
  | exit
  /-- mutex released with `pjob` taken off the queue; its callback runs next -/
  | run (pjob : Nat) (pool : threadpool) (ev : List Wake)
  /-- a dereference of `NULL` or of unallocated memory -/
  | fault
  deriving DecidableEq

/-- One pass of the body of `threadpool_function` from taking the mutex (or
waking inside `pthread_cond_wait`) to releasing it. -/
def threadpool_function (pool : threadpool) : WorkResult :=
  if pool.queue_cur_num = 0 ∧ pool.pool_close = 0 then .wait
  else if pool.pool_close ≠ 0 then .exit
  else
    let cur := wrap (pool.queue_cur_num - 1)
    let pjob := pool.head
    let ev := (if cur = 0 then [Wake.signal Cond.queue_empty] else [])
      ++ (if cur = wrap (pool.queue_max_num - 1) then [Wake.broadcast Cond.queue_not_full] else [])
    if cur = 0 then
      .run pjob { pool with queue_cur_num := cur, head := 0, tail := 0 } ev
    else
      match read pool.mem pjob with
      | none => .fault
      | some j => .run pjob { pool with queue_cur_num := cur, head := j.next } ev

/-- The part of a worker iteration that runs without the mutex:
`(*(pjob->callback_function))(pjob->arg); free(pjob)`.  Returns the callback
and argument that were invoked and the heap after the `free`. -/
def run_job (mem : Heap) (pjob : Nat) : Option ((Nat × Nat) × Heap) :=
  match read mem pjob with
  | none => none
  | some j => some ((j.callback_function, j.arg), free_job mem pjob)

/-! ## `threadpool_destroy` -/

/-- What one locked pass of `threadpool_destroy` ends in. -/
inductive DestroyResult where
  /-- returned `code` straight from the entry test -/
  | ret (code : Int) (pool : threadpool)
  /-- parked in the first `pthread_cond_wait(queue_empty)` -/
  | wait1 (pool : threadpool)
  /-- parked in the second `pthread_cond_wait(queue_empty)` -/
  | wait2 (pool : threadpool)
  /-- mutex released and both broadcasts sent; the join loop is next -/
  | unlocked (pool : threadpool) (ev : List Wake)
  deriving DecidableEq

/-- The code of `threadpool_destroy` from the test of the second wait loop to
the two broadcasts. -/
def destroy_second (pool : threadpool) : DestroyResult :=
  if pool.queue_cur_num ≠ 0 then .wait2 pool
  else .unlocked { pool with pool_close := 1 }
    [Wake.broadcast Cond.queue_not_empty, Wake.broadcast Cond.queue_not_full]

/-- The code of `threadpool_destroy` from the test of the first wait loop on. -/
def destroy_first (pool : threadpool) : DestroyResult :=
  if pool.queue_cur_num ≠ 0 then .wait1 pool
  else destroy_second { pool with pool_close := 1 }

/-- The code of `threadpool_destroy` from taking the mutex on. -/
def threadpool_destroy (pool : threadpool) : DestroyResult :=
  if pool.queue_close ≠ 0 ∨ pool.pool_close ≠ 0 then .ret (-1) pool
  else destroy_first { pool with queue_close := 1 }

/-- The pool as a pass of `threadpool_destroy` leaves it. -/
def DestroyResult.pool : DestroyResult → threadpool
  | .ret _ pool => pool
  | .wait1 pool => pool
  | .wait2 pool => pool
  | .unlocked pool _ => pool

/-- The loop `while(pool->head != NULL) { p = head; head = p->next; free(p); }`
at the end of `threadpool_destroy`; every round frees an allocated record, so
`fuel = mem.length` rounds are all it can make.  `none` is a fault. -/
def free_residual : Nat → Nat → Heap → Option (Nat × Heap)
  | fuel, head, mem =>
    if head = 0 then some (0, mem)
    else match fuel with
      | 0 => none
      | fuel + 1 =>
        match read mem head with
        | none => none
        | some p => free_residual fuel p.next (free_job mem head)

/-! ## The concurrent system -/

/-- Where one worker thread (`pool->pthreads[i]`) stands. -/
inductive Worker where
  /-- at the top of the loop or parked on `queue_not_empty` -/
  | idle
  /-- running the callback of the job at `pjob`, mutex not held -/
  | running (pjob : Nat)
  /-- the callback of `pjob` has called `threadpool_add_job(cb, arg)`, which is
  parked on `queue_not_full` -/
  | submitting (pjob : Nat) (cb arg : Nat)
  /-- terminated by `pthread_exit` -/
  | exited
  deriving DecidableEq

/-- The job record a worker currently owns, if any. -/
def Worker.job? : Worker → Option Nat
  | .idle => none
  | .running p => some p
  | .submitting p _ _ => some p
  | .exited => none

/-- Where the thread that passed the entry test of `threadpool_destroy` stands. -/
inductive DestroyPc where
  /-- no call has passed the entry test -/
  | idle
  | wait1
  | wait2
  /-- in the join loop with loop variable `i` -/
  | joining (i : Nat)
  /-- the call has freed the pool and returned 0 -/
  | returned
  deriving DecidableEq

/-- The pool, its threads and three history lists: the jobs for which
`threadpool_add_job` returned 0, the jobs workers took off the queue and the
jobs whose callback has returned, each in the order it happened. -/
structure Sys where
  pool : threadpool
  pthreads : List Worker
  dpc : DestroyPc
  accepted : List (Nat × Nat)
  dequeued : List (Nat × Nat)
  completed : List (Nat × Nat)
  deriving DecidableEq

/-- Outcome of the fallible calls of `threadpool_init` (`true` is success). -/
structure InitEnv where
  malloc_pool : Bool
  mutex_init : Bool
  cond_queue_empty : Bool
  cond_queue_not_empty : Bool
  cond_queue_not_full : Bool
  malloc_pthreads : Bool
  deriving DecidableEq

/-- The environment in which every call of `threadpool_init` succeeds. -/
def InitEnv.ok : InitEnv := ⟨true, true, true, true, true, true⟩

/-- The function `threadpool_init`: `none` is the `NULL` return.  The loop of
`pthread_create` starts one worker per index below `thread_num`. -/
def threadpool_init (thread_num queue_max_num : Int) (e : InitEnv) : Option Sys :=
  if e.malloc_pool = false then none
  else if e.mutex_init = false then none
  else if e.cond_queue_empty = false then none
  else if e.cond_queue_not_empty = false then none
  else if e.cond_queue_not_full = false then none
  else if e.malloc_pthreads = false then none
  else some {
    pool := { thread_num := thread_num, queue_max_num := queue_max_num, queue_cur_num := 0,
              head := 0, tail := 0, queue_close := 0, pool_close := 0, mem := [] }
    pthreads := List.replicate thread_num.toNat Worker.idle
    dpc := DestroyPc.idle
    accepted := [], dequeued := [], completed := [] }

/-- The atomic actions of the threads. -/
inductive Label where
  /-- a locked pass of `threadpool_add_job cb arg`, called by an outside thread
  (`who = none`) or from the callback that worker `i` is running (`some i`);
  `m` is the address `malloc` would return -/
  | add (who : Option Nat) (cb arg : Nat) (m : Nat)
  /-- a locked pass of the loop of worker `i` -/
  | work (i : Nat)
  /-- the callback of worker `i` returns and the record is freed -/
  | finish (i : Nat)
  /-- some thread calls `threadpool_destroy` -/
  | destroy
  /-- the thread parked inside `threadpool_destroy` wakes and re-tests -/
  | destroy_wake
  /-- one round of the join loop, or the clean-up after it -/
  | join
  deriving DecidableEq

/-- Whether the action belongs to a call of `threadpool_destroy`; the others
belong to `threadpool_add_job` and to the worker loop. -/
def Label.by_destroy : Label → Bool
  | .destroy => true
  | .destroy_wake => true
  | .join => true
  | _ => false

/-- Whether the thread `who` may run a pass of `threadpool_add_job cb arg`. -/
def caller_ok (ws : List Worker) (who : Option Nat) (cb arg : Nat) : Bool :=
  match who with
  | none => true
  | some i =>
    match ws[i]? with
    | some (.running _) => true
    | some (.submitting _ cb1 arg1) => decide (cb1 = cb ∧ arg1 = arg)
    | _ => false

/-- The caller of `threadpool_add_job` parks in `pthread_cond_wait`. -/
def park (ws : List Worker) (who : Option Nat) (cb arg : Nat) : List Worker :=
  match who with
  | none => ws
  | some i =>
    match (ws[i]?).bind Worker.job? with
    | some p => ws.set i (.submitting p cb arg)
    | none => ws

/-- The caller of `threadpool_add_job` gets its return value. -/
def resume (ws : List Worker) (who : Option Nat) : List Worker :=
  match who with
  | none => ws
  | some i =>
    match (ws[i]?).bind Worker.job? with
    | some p => ws.set i (.running p)
    | none => ws

/-- One atomic action; `none` when the action cannot happen in this state
(the thread is elsewhere, `malloc` cannot return that address, the pool has
been freed) or when it faults. -/
def step (σ : Sys) : Label → Option Sys
  | .add who cb arg m =>
    if σ.dpc = .returned then none
    else if caller_ok σ.pthreads who cb arg = false then none
    else if m ≠ 0 ∧ (read σ.pool.mem m).isSome then none
    else
      match threadpool_add_job σ.pool cb arg m with
      | .abort => none
      | .fault => none
      | .wait => some { σ with pthreads := park σ.pthreads who cb arg }
      | .ret code pool _ =>
        some { σ with pool := pool, pthreads := resume σ.pthreads who,
                      accepted := if code = 0 then σ.accepted ++ [(cb, arg)] else σ.accepted }
  | .work i =>
    if σ.dpc = .returned then none
    else if σ.pthreads[i]? ≠ some Worker.idle then none
    else
      match threadpool_function σ.pool with
      | .fault => none
      | .wait => some σ
      | .exit => some { σ with pthreads := σ.pthreads.set i .exited }
      | .run pjob pool _ =>
        match read pool.mem pjob with
        | none => none
        | some j =>
          some { σ with pool := pool, pthreads := σ.pthreads.set i (.running pjob),
                        dequeued := σ.dequeued ++ [(j.callback_function, j.arg)] }
  | .finish i =>
    if σ.dpc = .returned then none
    else
      match σ.pthreads[i]? with
      | some (.running pjob) =>
        match run_job σ.pool.mem pjob with
        | none => none
        | some (c, mem) =>
          some { σ with pool := { σ.pool with mem := mem }, pthreads := σ.pthreads.set i .idle,
                        completed := σ.completed ++ [c] }
      | _ => none
  | .destroy =>
    if σ.dpc = .returned then none
    else
      match threadpool_destroy σ.pool with
      | .ret _ _ => some σ
      | .wait1 pool => if σ.dpc = .idle then some { σ with pool := pool, dpc := .wait1 } else none
      | .wait2 pool => if σ.dpc = .idle then some { σ with pool := pool, dpc := .wait2 } else none
      | .unlocked pool _ =>
        if σ.dpc = .idle then some { σ with pool := pool, dpc := .joining 0 } else none
  | .destroy_wake =>
    match σ.dpc with
    | .wait1 =>
      match destroy_first σ.pool with
      | .ret _ _ => none
      | .wait1 pool => some { σ with pool := pool, dpc := .wait1 }
      | .wait2 pool => some { σ with pool := pool, dpc := .wait2 }
      | .unlocked pool _ => some { σ with pool := pool, dpc := .joining 0 }
    | .wait2 =>
      match destroy_second σ.pool with
      | .ret _ _ => none
      | .wait1 pool => some { σ with pool := pool, dpc := .wait1 }
      | .wait2 pool => some { σ with pool := pool, dpc := .wait2 }
      | .unlocked pool _ => some { σ with pool := pool, dpc := .joining 0 }
    | _ => none
  | .join =>
    match σ.dpc with
    | .joining i =>
      if (i : Int) < σ.pool.thread_num then
        if σ.pthreads[i]? = some Worker.exited then some { σ with dpc := .joining (i + 1) }
        else none
      else
        match free_residual σ.pool.mem.length σ.pool.head σ.pool.mem with
        | none => none
        | some (h, mem) =>
          some { σ with pool := { σ.pool with head := h, mem := mem }, dpc := .returned }
    | _ => none

/-- The states the system can be in after finitely many actions from `σ0`. -/
inductive Reachable (σ0 : Sys) : Sys → Prop where
  | start : Reachable σ0 σ0
  | next {σ σ1 : Sys} (l : Label) : Reachable σ0 σ → step σ l = some σ1 → Reachable σ0 σ1

/-- Runs a list of actions in order; `none` if one of them cannot happen. -/
def run : Sys → List Label → Option Sys
  | σ, [] => some σ
  | σ, l :: ls => (step σ l).bind (fun σ1 => run σ1 ls)

/-! ## Sample states -/

/-- The pool `threadpool_init(2, 1)` returns. -/
def demo_init : Sys :=
  { pool := { thread_num := 2, queue_max_num := 1, queue_cur_num := 0, head := 0, tail := 0,
              queue_close := 0, pool_close := 0, mem := [] }
    pthreads := [Worker.idle, Worker.idle]
    dpc := DestroyPc.idle
    accepted := [], dequeued := [], completed := [] }

/-- `demo_init` after job (7, 8) was submitted and taken by worker 0 and job
(7, 9) was submitted: the queue is full. -/
def demo_busy : Sys :=
  { pool := { thread_num := 2, queue_max_num := 1, queue_cur_num := 1, head := 101, tail := 101,
              queue_close := 0, pool_close := 0,
              mem := [(101, ⟨7, 9, 0⟩), (100, ⟨7, 8, 0⟩)] }
    pthreads := [Worker.running 100, Worker.idle]
    dpc := DestroyPc.idle
    accepted := [(7, 8), (7, 9)], dequeued := [(7, 8)], completed := [] }

/-- `demo_busy` after worker 1 took job (7, 9) off the queue. -/
def demo_taken : Sys :=
  { pool := { thread_num := 2, queue_max_num := 1, queue_cur_num := 0, head := 0, tail := 0,
              queue_close := 0, pool_close := 0,
              mem := [(101, ⟨7, 9, 0⟩), (100, ⟨7, 8, 0⟩)] }
    pthreads := [Worker.running 100, Worker.running 101]
    dpc := DestroyPc.idle
    accepted := [(7, 8), (7, 9)], dequeued := [(7, 8), (7, 9)], completed := [] }

/-- `demo_busy` after a call of `threadpool_destroy` that now waits for the
queue to drain. -/
def demo_closing : Sys :=
  { pool := { thread_num := 2, queue_max_num := 1, queue_cur_num := 1, head := 101, tail := 101,
              queue_close := 1, pool_close := 0,
              mem := [(101, ⟨7, 9, 0⟩), (100, ⟨7, 8, 0⟩)] }
    pthreads := [Worker.running 100, Worker.idle]
    dpc := DestroyPc.wait1
    accepted := [(7, 8), (7, 9)], dequeued := [(7, 8)], completed := [] }

/-- `demo_closing` after the queue drained, both callbacks returned and both
workers left: the destroying thread is about to join them. -/
def demo_joining : Sys :=
  { pool := { thread_num := 2, queue_max_num := 1, queue_cur_num := 0, head := 0, tail := 0,
              queue_close := 1, pool_close := 1, mem := [] }
    pthreads := [Worker.exited, Worker.exited]
    dpc := DestroyPc.joining 0
    accepted := [(7, 8), (7, 9)], dequeued := [(7, 8), (7, 9)], completed := [(7, 9), (7, 8)] }

/-- `demo_joining` after `threadpool_destroy` returned 0. -/
def demo_done : Sys :=
  { pool := { thread_num := 2, queue_max_num := 1, queue_cur_num := 0, head := 0, tail := 0,
              queue_close := 1, pool_close := 1, mem := [] }
    pthreads := [Worker.exited, Worker.exited]
    dpc := DestroyPc.returned
    accepted := [(7, 8), (7, 9)], dequeued := [(7, 8), (7, 9)], completed := [(7, 9), (7, 8)] }

/-- The pool `threadpool_init(1, 2)` returns: a single worker. -/
def demo_solo_init : Sys :=
  { pool := { thread_num := 1, queue_max_num := 2, queue_cur_num := 0, head := 0, tail := 0,
              queue_close := 0, pool_close := 0, mem := [] }
    pthreads := [Worker.idle]
    dpc := DestroyPc.idle
    accepted := [], dequeued := [], completed := [] }

/-- `demo_solo_init` after jobs (7, 8), (7, 9) and (7, 10) were submitted in
that order: the first has completed, the second is running and the third is
queued. -/
def demo_solo : Sys :=
  { pool := { thread_num := 1, queue_max_num := 2, queue_cur_num := 1, head := 102, tail := 102,
              queue_close := 0, pool_close := 0,
              mem := [(101, ⟨7, 9, 102⟩), (102, ⟨7, 10, 0⟩)] }
    pthreads := [Worker.running 101]
    dpc := DestroyPc.idle
    accepted := [(7, 8), (7, 9), (7, 10)], dequeued := [(7, 8), (7, 9)], completed := [(7, 8)] }

/-- The pool `threadpool_init(1, 0)` returns: one worker, no queue slot. -/
def demo_zero : Sys :=
  { pool := { thread_num := 1, queue_max_num := 0, queue_cur_num := 0, head := 0, tail := 0,
              queue_close := 0, pool_close := 0, mem := [] }
    pthreads := [Worker.idle]
    dpc := DestroyPc.idle
    accepted := [], dequeued := [], completed := [] }

/-! ## The queue as a linked list -/

/-- The records linked from pointer `p` through `next` up to `NULL` are exactly
those at the addresses in `q`, in that order. -/
def Linked (mem : Heap) : Nat → List Nat → Prop
  | p, [] => p = 0
  | p, a :: q => p = a ∧ a ≠ 0 ∧ ∃ j, read mem a = some j ∧ Linked mem j.next q

/-- The callback and argument stored in the record at `a`. -/
def job_of (mem : Heap) (a : Nat) : Nat × Nat :=
  match read mem a with
  | some j => (j.callback_function, j.arg)
  | none => (0, 0)

/-- The job records that workers have taken off the queue and not yet freed. -/
def owned (ws : List Worker) : List Nat := ws.filterMap Worker.job?

/-- Whether the closing flags and the queue fit the place where the
destroying thread stands. -/
def FlagsOk (σ : Sys) (q : List Nat) : Prop :=
  match σ.dpc with
  | .idle => σ.pool.queue_close = 0 ∧ σ.pool.pool_close = 0
  | .wait1 => σ.pool.queue_close ≠ 0 ∧ σ.pool.pool_close = 0
  | .wait2 => False
  | .joining i => σ.pool.queue_close ≠ 0 ∧ σ.pool.pool_close ≠ 0 ∧ q = []
      ∧ ∀ k, k < i → σ.pthreads[k]? = some Worker.exited
  | .returned => σ.pool.queue_close ≠ 0 ∧ σ.pool.pool_close ≠ 0 ∧ q = []
      ∧ ∀ k, k < σ.pthreads.length → σ.pthreads[k]? = some Worker.exited

/-- The queue fields of the pool describe the list `q` of record addresses:
`q` is what is linked from `head`, `queue_cur_num` is its length, `tail` is its
last element, and the length is within the capacity, which is an `int`. -/
structure QueueOk (pool : threadpool) (q : List Nat) : Prop where
  max_nonneg : 0 ≤ pool.queue_max_num
  max_le : pool.queue_max_num ≤ INT_MAX
  linked : Linked pool.mem pool.head q
  count : pool.queue_cur_num = q.length
  tail_last : pool.tail = q.getLastD 0
  le_max : (q.length : Int) ≤ pool.queue_max_num
  nodup : q.Nodup

/-- The inductive invariant of the system; `q` lists the addresses of the
queued records from head to tail. -/
structure Inv (σ : Sys) (q : List Nat) : Prop where
  queue : QueueOk σ.pool q
  nodup : (owned σ.pthreads ++ q).Nodup
  alloc : ∀ a ∈ owned σ.pthreads, (read σ.pool.mem a).isSome
  fifo : σ.dequeued ++ q.map (job_of σ.pool.mem) = σ.accepted
  done : (σ.completed ++ (owned σ.pthreads).map (job_of σ.pool.mem)).Perm σ.dequeued
  solo : σ.pthreads.length ≤ 1 →
    σ.completed ++ (owned σ.pthreads).map (job_of σ.pool.mem) = σ.dequeued
  nworkers : σ.pthreads.length = σ.pool.thread_num.toNat
  flags : FlagsOk σ q

/-! ## `threadpool_init` statement by statement -/

/-- The statements of `threadpool_init`, as far as their order matters. -/
inductive InitOp where
  | malloc_pool
  | set_thread_num (v : Int)
  | set_queue_max_num (v : Int)
  | set_queue_cur_num (v : Int)
  | set_head (v : Nat)
  | set_tail (v : Nat)
  | mutex_init
  | cond_init (c : Cond)
  | malloc_pthreads
  | set_queue_close (v : Int)
  | set_pool_close (v : Int)
  | pthread_create (i : Nat)
  | return_null
  | return_pool
  deriving DecidableEq

/-- The statements `threadpool_init` executes, in the order of the source,
up to its `return`. -/
def threadpool_init_ops (thread_num queue_max_num : Int) (e : InitEnv) : List InitOp :=
  [InitOp.malloc_pool] ++
  if e.malloc_pool = false then [InitOp.return_null]
  else
    [InitOp.set_thread_num thread_num, InitOp.set_queue_max_num queue_max_num,
      InitOp.set_queue_cur_num 0, InitOp.set_head 0, InitOp.set_tail 0, InitOp.mutex_init] ++
    if e.mutex_init = false then [InitOp.return_null]
    else
      [InitOp.cond_init Cond.queue_empty] ++
      if e.cond_queue_empty = false then [InitOp.return_null]
      else
        [InitOp.cond_init Cond.queue_not_empty] ++
        if e.cond_queue_not_empty = false then [InitOp.return_null]
        else
          [InitOp.cond_init Cond.queue_not_full] ++
          if e.cond_queue_not_full = false then [InitOp.return_null]
          else
            [InitOp.malloc_pthreads] ++
            if e.malloc_pthreads = false then [InitOp.return_null]
            else
              [InitOp.set_queue_close 0, InitOp.set_pool_close 0]
                ++ (List.range thread_num.toNat).map InitOp.pthread_create
                ++ [InitOp.return_pool]

/-- The effect of one statement of `threadpool_init` on the pool being built;
`pthread_create` adds a worker at the top of its loop. -/
def init_step (σ : Sys) : InitOp → Sys
  | .set_thread_num v => { σ with pool := { σ.pool with thread_num := v } }
  | .set_queue_max_num v => { σ with pool := { σ.pool with queue_max_num := v } }
  | .set_queue_cur_num v => { σ with pool := { σ.pool with queue_cur_num := v } }
  | .set_head v => { σ with pool := { σ.pool with head := v } }
  | .set_tail v => { σ with pool := { σ.pool with tail := v } }
  | .set_queue_close v => { σ with pool := { σ.pool with queue_close := v } }
  | .set_pool_close v => { σ with pool := { σ.pool with pool_close := v } }
  | .pthread_create _ => { σ with pthreads := σ.pthreads ++ [Worker.idle] }
  | _ => σ

/-- The pool right after `malloc`: its fields hold whatever `junk` was in the
memory, no thread exists and no job record is allocated. -/
def init_blank (junk : threadpool) : Sys :=
  { pool := { junk with mem := [] }, pthreads := [], dpc := DestroyPc.idle,
    accepted := [], dequeued := [], completed := [] }

/-- What a sequence of statements of `threadpool_init` returns: the pool built
from uninitialised memory when it ends in `return pool`, `NULL` otherwise. -/
def init_run (junk : threadpool) (ops : List InitOp) : Option Sys :=
  if ops.getLast? = some InitOp.return_pool then some (ops.foldl init_step (init_blank junk))
  else none

/-! ## One pass of a worker, operation by operation -/

/-- The operations of a worker that matter for who holds the mutex. -/
inductive Op where
  | lock
  | unlock
  | cond_wait (c : Cond)
  | wake (w : Wake)
  /-- the statements that take `pjob` off the queue -/
  | dequeue (pjob : Nat)
  /-- the call `(*(pjob->callback_function))(pjob->arg)` -/
  | call (cb arg : Nat)
  | free (pjob : Nat)
  | thread_exit
  deriving DecidableEq

/-- The operations of one pass of the worker loop in the order of the source,
from the loop test (mutex held) to the end of the iteration: the dequeue, the
wake-ups, `pthread_mutex_unlock`, then the callback and `free`. -/
def worker_pass_ops (pool : threadpool) : List Op :=
  match threadpool_function pool with
  | .wait => [Op.cond_wait Cond.queue_not_empty]
  | .exit => [Op.unlock, Op.thread_exit]
  | .fault => []
  | .run pjob pool1 ev =>
    [Op.dequeue pjob] ++ ev.map Op.wake ++ [Op.unlock] ++
      match run_job pool1.mem pjob with
      | none => []
      | some (c, _) => [Op.call c.1 c.2, Op.free pjob]

/-- Whether the thread holds the mutex after an operation, given whether it
held it before. -/
def holds (held : Bool) : Op → Bool
  | .lock => true
  | .unlock => false
  | .cond_wait _ => false
  | _ => held

/-- Each operation of a sequence, paired with whether the mutex is held when
the operation starts. -/
def held_before : Bool → List Op → List (Op × Bool)
  | _, [] => []
  | h, o :: os => (o, h) :: held_before (holds h o) os

/-! ## `threadpool_destroy` without the second wait -/

/-- The code of `threadpool_destroy` from the test of the first wait loop on,
as the specification allows it to be simplified: the second wait loop and the
repeated `pool_close = 1` are dropped. -/
def destroy_first_simplified (pool : threadpool) : DestroyResult :=
  if pool.queue_cur_num ≠ 0 then .wait1 pool
  else .unlocked { pool with pool_close := 1 }
    [Wake.broadcast Cond.queue_not_empty, Wake.broadcast Cond.queue_not_full]

/-- The simplified `threadpool_destroy` from taking the mutex on. -/
def threadpool_destroy_simplified (pool : threadpool) : DestroyResult :=
  if pool.queue_close ≠ 0 ∨ pool.pool_close ≠ 0 then .ret (-1) pool
  else destroy_first_simplified { pool with queue_close := 1 }

/-- The system in which `threadpool_destroy` is replaced by its simplified
form; all other actions are those of `step`. -/
def step_simplified (σ : Sys) : Label → Option Sys
  | .destroy =>
    if σ.dpc = .returned then none
    else
      match threadpool_destroy_simplified σ.pool with
      | .ret _ _ => some σ
      | .wait1 pool => if σ.dpc = .idle then some { σ with pool := pool, dpc := .wait1 } else none
      | .wait2 _ => none
      | .unlocked pool _ =>
        if σ.dpc = .idle then some { σ with pool := pool, dpc := .joining 0 } else none
  | .destroy_wake =>
    match σ.dpc with
    | .wait1 =>
      match destroy_first_simplified σ.pool with
      | .ret _ _ => none
      | .wait1 pool => some { σ with pool := pool, dpc := .wait1 }
      | .wait2 _ => none
      | .unlocked pool _ => some { σ with pool := pool, dpc := .joining 0 }
    | _ => none
  | l => step σ l

/-- The states the simplified system can be in after finitely many actions. -/
inductive ReachableSimplified (σ0 : Sys) : Sys → Prop where
  | start : ReachableSimplified σ0 σ0
  | next {σ σ1 : Sys} (l : Label) :
    ReachableSimplified σ0 σ → step_simplified σ l = some σ1 → ReachableSimplified σ0 σ1

/-! ## More sample states -/

/-- The pool `threadpool_init(1, 1)` returns: one worker, one queue slot. -/
def demo_one_init : Sys :=
  { pool := { thread_num := 1, queue_max_num := 1, queue_cur_num := 0, head := 0, tail := 0,
              queue_close := 0, pool_close := 0, mem := [] }
    pthreads := [Worker.idle]
    dpc := DestroyPc.idle
    accepted := [], dequeued := [], completed := [] }

/-- `demo_one_init` after job (7, 8) was submitted and taken by the worker,
whose callback has submitted job (7, 9): the queue is full again. -/
def demo_nested : Sys :=
  { pool := { thread_num := 1, queue_max_num := 1, queue_cur_num := 1, head := 101, tail := 101,
              queue_close := 0, pool_close := 0,
              mem := [(101, ⟨7, 9, 0⟩), (100, ⟨7, 8, 0⟩)] }
    pthreads := [Worker.running 100]
    dpc := DestroyPc.idle
    accepted := [(7, 8), (7, 9)], dequeued := [(7, 8)], completed := [] }

/-- `demo_nested` after the same callback has called
`threadpool_add_job` for job (7, 10): the only worker is parked inside that
call. -/
def demo_stuck : Sys :=
  { pool := { thread_num := 1, queue_max_num := 1, queue_cur_num := 1, head := 101, tail := 101,
              queue_close := 0, pool_close := 0,
              mem := [(101, ⟨7, 9, 0⟩), (100, ⟨7, 8, 0⟩)] }
    pthreads := [Worker.submitting 100 7 10]
    dpc := DestroyPc.idle
    accepted := [(7, 8), (7, 9)], dequeued := [(7, 8)], completed := [] }

/-- Whether the worker is parked inside a `threadpool_add_job` call issued
from the job it is executing. -/
def Worker.blocked_in_submit : Worker → Bool
  | .submitting _ _ _ => true
  | _ => false

/-- `demo_closing` after worker 1 took the last job and the destroying thread
woke, set `pool_close` and went on to its join loop, while both callbacks are
still running. -/
def demo_drained : Sys :=
  { pool := { thread_num := 2, queue_max_num := 1, queue_cur_num := 0, head := 0, tail := 0,
              queue_close := 1, pool_close := 1,
              mem := [(101, ⟨7, 9, 0⟩), (100, ⟨7, 8, 0⟩)] }
    pthreads := [Worker.running 100, Worker.running 101]
    dpc := DestroyPc.joining 0
    accepted := [(7, 8), (7, 9)], dequeued := [(7, 8), (7, 9)], completed := [] }

/-! ## Memory and arithmetic lemmas -/

theorem wrap_id (x : Int) (h1 : INT_MIN ≤ x) (h2 : x ≤ INT_MAX) : wrap x = x := by
  unfold wrap
  unfold INT_MIN at h1
  unfold INT_MAX at h2
  omega

theorem read_free_job (mem : Heap) (p x : Nat) :
    read (free_job mem p) x = if x = p then none else read mem x := by
  induction mem with
  | nil => simp [free_job, read]
  | cons e rest ih =>
    obtain ⟨a, j⟩ := e
    unfold free_job at ih ⊢
    by_cases hap : a = p
    · subst hap
      simp only [List.filter_cons, ne_eq, not_true_eq_false, decide_False, Bool.false_eq_true,
        if_false, ih, read]
      split_ifs with h1 h2 <;> simp_all
    · simp only [List.filter_cons, ne_eq, hap, not_false_eq_true, decide_True, if_true, read, ih]
      split_ifs with h1 h2 <;> simp_all

theorem read_write (mem : Heap) (p x : Nat) (j : job) :
    read (write mem p j) x = if x = p then some j else read mem x := by
  unfold write
  simp only [read, read_free_job]
  split_ifs with h1 h2 h3 <;> simp_all

/-! ## Lemmas on linked lists and on the worker array -/

theorem Linked_congr (mem mem1 : Heap) (q : List Nat) (p : Nat)
    (h : ∀ a ∈ q, read mem1 a = read mem a) (hl : Linked mem p q) : Linked mem1 p q := by
  induction q generalizing p with
  | nil => exact hl
  | cons a q ih =>
    obtain ⟨hp, ha, j, hj, hq⟩ := hl
    refine ⟨hp, ha, j, ?_, ih _ (fun b hb => h b (List.mem_cons_of_mem _ hb)) hq⟩
    rw [h a (List.mem_cons_self _ _)]
    exact hj

theorem Linked_alloc (mem : Heap) (q : List Nat) (p : Nat) (hl : Linked mem p q) :
    ∀ a ∈ q, a ≠ 0 ∧ (read mem a).isSome := by
  induction q generalizing p with
  | nil => intro a ha; cases ha
  | cons b q ih =>
    obtain ⟨_, hb, j, hj, hq⟩ := hl
    intro a ha
    rcases List.mem_cons.1 ha with rfl | ha
    · exact ⟨hb, by simp [hj]⟩
    · exact ih _ hq a ha

theorem Linked_unique (mem : Heap) (q q1 : List Nat) (p : Nat)
    (h : Linked mem p q) (h1 : Linked mem p q1) : q = q1 := by
  induction q generalizing p q1 with
  | nil =>
    cases q1 with
    | nil => rfl
    | cons b q1 =>
      obtain ⟨hp, hb, _⟩ := h1
      have h0 : p = 0 := h
      omega
  | cons a q ih =>
    obtain ⟨hp, ha, j, hj, hq⟩ := h
    cases q1 with
    | nil =>
      have h0 : p = 0 := h1
      omega
    | cons b q1 =>
      obtain ⟨hp1, _, j1, hj1, hq1⟩ := h1
      have hab : a = b := by omega
      subst hab
      rw [hj] at hj1
      cases hj1
      rw [ih _ _ hq hq1]

theorem Linked_head_null (mem : Heap) (q : List Nat) (p : Nat) (h : Linked mem p q) :
    p = 0 ↔ q = [] := by
  cases q with
  | nil => exact ⟨fun _ => rfl, fun _ => h⟩
  | cons a q =>
    obtain ⟨hp, ha, _⟩ := h
    constructor
    · intro h0; omega
    · intro h0; cases h0

theorem getLastD_mem (a : Nat) (q : List Nat) : (a :: q).getLastD 0 ∈ a :: q := by
  induction q generalizing a with
  | nil => simp
  | cons b q ih =>
    have h : (a :: b :: q).getLastD 0 = (b :: q).getLastD 0 := by simp
    rw [h]
    exact List.mem_cons_of_mem _ (ih b)

theorem Linked_snoc (mem mem2 : Heap) (q : List Nat) (p a m : Nat) (t nj : job)
    (hl : Linked mem p (a :: q)) (hnd : (a :: q).Nodup) (hm0 : m ≠ 0)
    (hmq : m ∉ a :: q) (ht : read mem ((a :: q).getLastD 0) = some t)
    (hnj : nj.next = 0)
    (h2 : ∀ x, read mem2 x = if x = (a :: q).getLastD 0 then some { t with next := m }
      else if x = m then some nj else read mem x) :
    Linked mem2 p (a :: q ++ [m]) := by
  induction q generalizing p a with
  | nil =>
    obtain ⟨hp, ha, j, hj, hq⟩ := hl
    simp only [List.getLastD_cons, List.getLastD_nil] at ht h2
    rw [hj] at ht
    cases ht
    have hma : m ≠ a := fun h => hmq (by simp [h])
    refine ⟨hp, ha, { t with next := m }, by rw [h2]; simp, ?_⟩
    refine ⟨rfl, hm0, nj, by rw [h2]; simp [hma], ?_⟩
    exact hnj
  | cons b q ih =>
    obtain ⟨hp, ha, j, hj, hq⟩ := hl
    have hlast : (a :: b :: q).getLastD 0 = (b :: q).getLastD 0 := by simp
    rw [hlast] at ht h2
    have hnd1 : (b :: q).Nodup := (List.nodup_cons.1 hnd).2
    have hmem : (b :: q).getLastD 0 ∈ b :: q := getLastD_mem b q
    have hal : a ≠ (b :: q).getLastD 0 := by
      intro h
      exact (List.nodup_cons.1 hnd).1 (h ▸ hmem)
    have ham : a ≠ m := fun h => hmq (by simp [h])
    refine ⟨hp, ha, j, by rw [h2, if_neg hal, if_neg ham]; exact hj, ?_⟩
    exact ih _ _ hq hnd1 (fun h => hmq (List.mem_cons_of_mem _ h)) ht h2

theorem owned_set_same (ws : List Worker) (i : Nat) (w w1 : Worker)
    (h : ws[i]? = some w) (hj : w1.job? = w.job?) : owned (ws.set i w1) = owned ws := by
  induction ws generalizing i with
  | nil => simp
  | cons x ws ih =>
    cases i with
    | zero =>
      simp only [List.getElem?_cons_zero, Option.some.injEq] at h
      subst h
      simp [owned, List.filterMap_cons, hj]
    | succ i =>
      simp only [List.getElem?_cons_succ] at h
      have := ih i h
      simp only [owned, List.set_cons_succ, List.filterMap_cons] at this ⊢
      rw [this]

theorem owned_set_gain (ws : List Worker) (i p : Nat) (w w1 : Worker)
    (h : ws[i]? = some w) (hw : w.job? = none) (hj : w1.job? = some p) :
    (owned (ws.set i w1)).Perm (p :: owned ws) := by
  induction ws generalizing i with
  | nil => simp at h
  | cons x ws ih =>
    cases i with
    | zero =>
      simp only [List.getElem?_cons_zero, Option.some.injEq] at h
      subst h
      simp [owned, List.filterMap_cons, hj, hw]
    | succ i =>
      simp only [List.getElem?_cons_succ] at h
      have := ih i h
      simp only [owned, List.set_cons_succ, List.filterMap_cons] at this ⊢
      cases hx : x.job? with
      | none => simpa using this
      | some y =>
        simp only
        exact (List.Perm.cons y this).trans (List.Perm.swap p y _)

theorem owned_set_lose (ws : List Worker) (i p : Nat) (w w1 : Worker)
    (h : ws[i]? = some w) (hw : w.job? = some p) (hj : w1.job? = none) :
    (owned ws).Perm (p :: owned (ws.set i w1)) := by
  induction ws generalizing i with
  | nil => simp at h
  | cons x ws ih =>
    cases i with
    | zero =>
      simp only [List.getElem?_cons_zero, Option.some.injEq] at h
      subst h
      simp [owned, List.filterMap_cons, hj, hw]
    | succ i =>
      simp only [List.getElem?_cons_succ] at h
      have := ih i h
      simp only [owned, List.set_cons_succ, List.filterMap_cons] at this ⊢
      cases hx : x.job? with
      | none => simpa using this
      | some y =>
        simp only
        exact (List.Perm.cons y this).trans (List.Perm.swap p y _)

theorem exited_set (ws : List Worker) (i k : Nat) (w w1 : Worker)
    (h : ws[i]? = some w) (hw : w ≠ Worker.exited)
    (hk : ws[k]? = some Worker.exited) : (ws.set i w1)[k]? = some Worker.exited := by
  have hik : i ≠ k := by
    intro e
    subst e
    rw [h] at hk
    cases hk
    exact hw rfl
  rw [List.getElem?_set_ne hik]
  exact hk

theorem owned_park (ws : List Worker) (who : Option Nat) (cb arg : Nat) :
    owned (park ws who cb arg) = owned ws := by
  unfold park
  cases who with
  | none => rfl
  | some i =>
    simp only
    cases hw : ws[i]? with
    | none => simp
    | some w =>
      cases hj : w.job? with
      | none => simp [hj]
      | some p =>
        simp only [Option.some_bind, hj]
        exact owned_set_same ws i w _ hw (by rw [hj]; rfl)

theorem owned_resume (ws : List Worker) (who : Option Nat) :
    owned (resume ws who) = owned ws := by
  unfold resume
  cases who with
  | none => rfl
  | some i =>
    simp only
    cases hw : ws[i]? with
    | none => simp
    | some w =>
      cases hj : w.job? with
      | none => simp [hj]
      | some p =>
        simp only [Option.some_bind, hj]
        exact owned_set_same ws i w _ hw (by rw [hj]; rfl)

theorem length_park (ws : List Worker) (who : Option Nat) (cb arg : Nat) :
    (park ws who cb arg).length = ws.length := by
  unfold park
  cases who with
  | none => rfl
  | some i => simp only; split <;> simp

theorem length_resume (ws : List Worker) (who : Option Nat) :
    (resume ws who).length = ws.length := by
  unfold resume
  cases who with
  | none => rfl
  | some i => simp only; split <;> simp

theorem exited_park (ws : List Worker) (who : Option Nat) (cb arg k : Nat)
    (hk : ws[k]? = some Worker.exited) : (park ws who cb arg)[k]? = some Worker.exited := by
  unfold park
  cases who with
  | none => exact hk
  | some i =>
    simp only
    cases hw : ws[i]? with
    | none => simpa using hk
    | some w =>
      cases hj : w.job? with
      | none => simpa [hj] using hk
      | some p =>
        simp only [Option.some_bind, hj]
        exact exited_set ws i k w _ hw (by intro e; subst e; simp [Worker.job?] at hj) hk

theorem exited_resume (ws : List Worker) (who : Option Nat) (k : Nat)
    (hk : ws[k]? = some Worker.exited) : (resume ws who)[k]? = some Worker.exited := by
  unfold resume
  cases who with
  | none => exact hk
  | some i =>
    simp only
    cases hw : ws[i]? with
    | none => simpa using hk
    | some w =>
      cases hj : w.job? with
      | none => simpa [hj] using hk
      | some p =>
        simp only [Option.some_bind, hj]
        exact exited_set ws i k w _ hw (by intro e; subst e; simp [Worker.job?] at hj) hk

/-! ## The locked passes on a well-formed queue -/

theorem job_of_congr (mem mem1 : Heap) (a : Nat) (h : read mem1 a = read mem a) :
    job_of mem1 a = job_of mem a := by
  unfold job_of
  rw [h]

theorem map_job_of_congr (mem mem1 : Heap) (l : List Nat)
    (h : ∀ a ∈ l, job_of mem1 a = job_of mem a) :
    l.map (job_of mem1) = l.map (job_of mem) :=
  List.map_congr_left h

theorem getLastD_snoc (q : List Nat) (m : Nat) : (q ++ [m]).getLastD 0 = m := by
  rw [List.getLastD_eq_getLast?, List.getLast?_append]
  simp

/-- A pass of `threadpool_add_job` on an open, not full, well-formed queue with
a successful `malloc` returns 0 and links the new record after the old ones. -/
theorem add_job_ok (pool : threadpool) (q : List Nat) (cb arg m : Nat)
    (hq : QueueOk pool q) (hcb : cb ≠ 0) (harg : arg ≠ 0)
    (hqc : pool.queue_close = 0) (hpc : pool.pool_close = 0)
    (hfull : pool.queue_cur_num ≠ pool.queue_max_num)
    (hm : m ≠ 0) (hfresh : read pool.mem m = none) :
    ∃ pool1 ev, threadpool_add_job pool cb arg m = .ret 0 pool1 ev
      ∧ QueueOk pool1 (q ++ [m])
      ∧ pool1.queue_cur_num = pool.queue_cur_num + 1
      ∧ (∀ x, x ≠ m → job_of pool1.mem x = job_of pool.mem x)
      ∧ read pool1.mem m = some ⟨cb, arg, 0⟩
      ∧ (∀ x, (read pool.mem x).isSome → (read pool1.mem x).isSome)
      ∧ pool1.queue_close = pool.queue_close ∧ pool1.pool_close = pool.pool_close
      ∧ pool1.thread_num = pool.thread_num ∧ pool1.queue_max_num = pool.queue_max_num
      ∧ (ev = if q = [] then [Wake.broadcast Cond.queue_not_empty] else []) := by
  have hmq : m ∉ q := by
    intro h
    have := (Linked_alloc _ _ _ hq.linked m h).2
    rw [hfresh] at this
    cases this
  have hcnt : wrap (pool.queue_cur_num + 1) = pool.queue_cur_num + 1 := by
    apply wrap_id
    · have := hq.count; unfold INT_MIN; omega
    · have := hq.count; have := hq.le_max; have := hq.max_le; omega
  have hlen : ((q ++ [m]).length : Int) = pool.queue_cur_num + 1 := by
    rw [hq.count]; simp
  have hnd : (q ++ [m]).Nodup := by
    rw [List.nodup_append]
    exact ⟨hq.nodup, List.nodup_singleton m, by
      intro a ha hb
      rw [List.mem_singleton] at hb
      subst hb
      exact hmq ha⟩
  have hle : ((q ++ [m]).length : Int) ≤ pool.queue_max_num := by
    rw [hlen]; have := hq.count; have := hq.le_max; omega
  unfold threadpool_add_job
  rw [if_neg (by simp [hcb, harg]), if_neg (by simp [hfull]), if_neg (by simp [hqc, hpc]),
    if_neg hm]
  cases q with
  | nil =>
    have hh : pool.head = 0 := hq.linked
    simp only [hh, if_true]
    refine ⟨_, _, rfl, ?_, hcnt, ?_, ?_, ?_, rfl, rfl, rfl, rfl, by simp⟩
    · exact {
        max_nonneg := hq.max_nonneg
        max_le := hq.max_le
        linked := ⟨rfl, hm, ⟨cb, arg, 0⟩, by simp [read_write], rfl⟩
        count := by simp only [hcnt]; rw [← hlen]
        tail_last := (getLastD_snoc [] m).symm
        le_max := hle
        nodup := hnd }
    · intro x hx
      exact job_of_congr _ _ _ (by simp [read_write, hx])
    · simp [read_write]
    · intro x hx
      simp only [read_write]
      split_ifs <;> simp [hx]
  | cons a q =>
    obtain ⟨hp, ha, j, hj, hl⟩ := hq.linked
    have hh : pool.head ≠ 0 := by omega
    have htm : (a :: q).getLastD 0 ∈ a :: q := getLastD_mem a q
    have ht := Linked_alloc _ _ _ hq.linked _ htm
    rw [← hq.tail_last] at ht htm
    have htne : pool.tail ≠ m := by
      intro e
      rw [e] at htm
      exact hmq htm
    obtain ⟨t, ht1⟩ := Option.isSome_iff_exists.1 ht.2
    have hrt : read (write pool.mem m ⟨cb, arg, 0⟩) pool.tail = some t := by
      rw [read_write, if_neg htne]; exact ht1
    simp only [if_neg hh, if_neg ht.1, hrt]
    have h2 : ∀ x, read (write (write pool.mem m ⟨cb, arg, 0⟩) pool.tail { t with next := m }) x
        = if x = (a :: q).getLastD 0 then some { t with next := m }
          else if x = m then some ⟨cb, arg, 0⟩ else read pool.mem x := by
      intro x
      rw [read_write, read_write, hq.tail_last]
    refine ⟨_, _, rfl, ?_, hcnt, ?_, ?_, ?_, rfl, rfl, rfl, rfl, by simp⟩
    · exact {
        max_nonneg := hq.max_nonneg
        max_le := hq.max_le
        linked := Linked_snoc pool.mem _ q pool.head a m t ⟨cb, arg, 0⟩ hq.linked hq.nodup hm hmq
          (by rw [← hq.tail_last]; exact ht1) rfl h2
        count := by simp only [hcnt]; rw [← hlen]
        tail_last := (getLastD_snoc (a :: q) m).symm
        le_max := hle
        nodup := hnd }
    · intro x hx
      unfold job_of
      simp only [h2, if_neg hx]
      split_ifs with hxt
      · rw [← hq.tail_last] at hxt
        subst hxt
        rw [ht1]
      · rfl
    · simp only [h2, if_true]
      rw [if_neg (by rw [← hq.tail_last]; exact fun e => htne e.symm)]
    · intro x hx
      simp only [h2]
      split_ifs <;> simp [hx]

theorem add_job_abort (pool : threadpool) (cb arg m : Nat) (h : cb = 0 ∨ arg = 0) :
    threadpool_add_job pool cb arg m = .abort := by
  unfold threadpool_add_job
  rw [if_pos h]

theorem add_job_closed (pool : threadpool) (cb arg m : Nat) (hcb : cb ≠ 0) (harg : arg ≠ 0)
    (h : pool.queue_close ≠ 0 ∨ pool.pool_close ≠ 0) :
    threadpool_add_job pool cb arg m = .ret (-1) pool [] := by
  unfold threadpool_add_job
  rw [if_neg (by simp [hcb, harg]), if_neg (fun hh => hh.2 h), if_pos h]

theorem add_job_full (pool : threadpool) (cb arg m : Nat) (hcb : cb ≠ 0) (harg : arg ≠ 0)
    (hqc : pool.queue_close = 0) (hpc : pool.pool_close = 0)
    (hfull : pool.queue_cur_num = pool.queue_max_num) :
    threadpool_add_job pool cb arg m = .wait := by
  unfold threadpool_add_job
  rw [if_neg (by simp [hcb, harg]), if_pos ⟨hfull, by simp [hqc, hpc]⟩]

theorem add_job_nomem (pool : threadpool) (cb arg : Nat) (hcb : cb ≠ 0) (harg : arg ≠ 0)
    (hqc : pool.queue_close = 0) (hpc : pool.pool_close = 0)
    (hfull : pool.queue_cur_num ≠ pool.queue_max_num) :
    threadpool_add_job pool cb arg 0 = .ret (-1) pool [] := by
  unfold threadpool_add_job
  rw [if_neg (by simp [hcb, harg]), if_neg (by simp [hfull]), if_neg (by simp [hqc, hpc]),
    if_pos rfl]

theorem function_wait (pool : threadpool) (h0 : pool.queue_cur_num = 0)
    (hpc : pool.pool_close = 0) : threadpool_function pool = .wait := by
  unfold threadpool_function
  rw [if_pos ⟨h0, hpc⟩]

theorem function_exit (pool : threadpool) (hpc : pool.pool_close ≠ 0) :
    threadpool_function pool = .exit := by
  unfold threadpool_function
  rw [if_neg (fun h => hpc h.2), if_pos hpc]

/-- A pass of the worker loop on a non-empty well-formed queue of a pool whose
`pool_close` is clear takes the first record off the queue. -/
theorem function_ok (pool : threadpool) (q : List Nat) (hq : QueueOk pool q)
    (hpc : pool.pool_close = 0) (hne : pool.queue_cur_num ≠ 0) :
    ∃ a q1 j pool1 ev, q = a :: q1 ∧ read pool.mem a = some j
      ∧ threadpool_function pool = .run a pool1 ev
      ∧ QueueOk pool1 q1
      ∧ pool1.queue_cur_num = pool.queue_cur_num - 1
      ∧ pool1.mem = pool.mem
      ∧ pool1.queue_close = pool.queue_close ∧ pool1.pool_close = pool.pool_close
      ∧ pool1.thread_num = pool.thread_num ∧ pool1.queue_max_num = pool.queue_max_num
      ∧ ev = (if q1 = [] then [Wake.signal Cond.queue_empty] else [])
          ++ (if pool.queue_cur_num = pool.queue_max_num
              then [Wake.broadcast Cond.queue_not_full] else []) := by
  cases q with
  | nil => exact absurd hq.count (by simpa using hne)
  | cons a q1 =>
    obtain ⟨hp, ha, j, hj, hl⟩ := hq.linked
    have hc := hq.count
    have hmax := hq.max_le
    have hle := hq.le_max
    simp only [List.length_cons, Nat.cast_add, Nat.cast_one] at hc hle
    have hcnt : wrap (pool.queue_cur_num - 1) = q1.length := by
      rw [wrap_id] <;> unfold INT_MIN INT_MAX at * <;> omega
    have hm1 : wrap (pool.queue_max_num - 1) = pool.queue_max_num - 1 := by
      have := hq.max_nonneg
      rw [wrap_id] <;> unfold INT_MIN INT_MAX at * <;> omega
    have hev : ((q1.length : Int) = pool.queue_max_num - 1) = (pool.queue_cur_num = pool.queue_max_num) := by
      apply propext
      constructor <;> intro h <;> omega
    have hz : ((q1.length : Int) = 0) = (q1 = []) := by
      apply propext
      rw [← List.length_eq_zero]
      constructor <;> intro h <;> omega
    have hnd : q1.Nodup := (List.nodup_cons.1 hq.nodup).2
    unfold threadpool_function
    rw [if_neg (fun h => hne h.1), if_neg (by simp [hpc])]
    simp only [hcnt, hm1, hev, hz]
    subst hp
    by_cases hq1 : q1 = []
    · subst hq1
      refine ⟨pool.head, [], j,
        { pool with queue_cur_num := (([] : List Nat).length : Int), head := 0, tail := 0 }, _,
        rfl, hj, by rw [if_pos rfl], ?_, by simp only; omega, rfl, rfl, rfl, rfl, rfl, rfl⟩
      exact {
        max_nonneg := hq.max_nonneg
        max_le := hq.max_le
        linked := rfl
        count := rfl
        tail_last := rfl
        le_max := by simpa using hq.max_nonneg
        nodup := List.nodup_nil }
    · refine ⟨pool.head, q1, j,
        { pool with queue_cur_num := (q1.length : Int), head := j.next }, _,
        rfl, hj, by rw [if_neg hq1, hj], ?_, by simp only; omega, rfl, rfl, rfl, rfl, rfl, rfl⟩
      exact {
        max_nonneg := hq.max_nonneg
        max_le := hq.max_le
        linked := hl
        count := rfl
        tail_last := by
          have := hq.tail_last
          cases q1 with
          | nil => exact absurd rfl hq1
          | cons b q2 => simpa using this
        le_max := by simp only; omega
        nodup := hnd }

/-! ## Preservation of the invariant -/

theorem FlagsOk_update (σ σ1 : Sys) (q q1 : List Nat) (h : FlagsOk σ q)
    (hd : σ1.dpc = σ.dpc)
    (hqc : σ1.pool.queue_close = σ.pool.queue_close)
    (hpc : σ1.pool.pool_close = σ.pool.pool_close)
    (hl : σ1.pthreads.length = σ.pthreads.length)
    (he : ∀ k : Nat, σ.pthreads[k]? = some Worker.exited → σ1.pthreads[k]? = some Worker.exited)
    (hq : σ.pool.pool_close ≠ 0 → q1 = q) : FlagsOk σ1 q1 := by
  unfold FlagsOk at h ⊢
  rw [hd, hqc, hpc, hl]
  cases hdpc : σ.dpc with
  | idle => simpa [hdpc] using h
  | wait1 => simpa [hdpc] using h
  | wait2 => simp [hdpc] at h
  | joining i =>
    simp only [hdpc] at h ⊢
    obtain ⟨h1, h2, h3, h4⟩ := h
    exact ⟨h1, h2, by rw [hq h2]; exact h3, fun k hk => he k (h4 k hk)⟩
  | returned =>
    simp only [hdpc] at h ⊢
    obtain ⟨h1, h2, h3, h4⟩ := h
    exact ⟨h1, h2, by rw [hq h2]; exact h3, fun k hk => he k (h4 k hk)⟩

theorem FlagsOk_open (σ : Sys) (q : List Nat) (h : FlagsOk σ q)
    (hqc : σ.pool.queue_close = 0) : σ.dpc = DestroyPc.idle := by
  unfold FlagsOk at h
  cases hdpc : σ.dpc with
  | idle => rfl
  | wait1 => simp only [hdpc] at h; exact absurd hqc h.1
  | wait2 => simp [hdpc] at h
  | joining i => simp only [hdpc] at h; exact absurd hqc h.1
  | returned => simp only [hdpc] at h; exact absurd hqc h.1

theorem FlagsOk_pool_close (σ : Sys) (q : List Nat) (h : FlagsOk σ q)
    (hpc : σ.pool.pool_close ≠ 0) : σ.pool.queue_close ≠ 0 ∧ q = [] := by
  unfold FlagsOk at h
  cases hdpc : σ.dpc with
  | idle => simp only [hdpc] at h; exact absurd h.2 hpc
  | wait1 => simp only [hdpc] at h; exact absurd h.2 hpc
  | wait2 => simp [hdpc] at h
  | joining i => simp only [hdpc] at h; exact ⟨h.1, h.2.2.1⟩
  | returned => simp only [hdpc] at h; exact ⟨h.1, h.2.2.1⟩

/-- The invariant carries over to a state that differs only in where the
threads stand, as long as they own the same records and none has come back
from `pthread_exit`. -/
theorem Inv_same_pool (σ σ1 : Sys) (q : List Nat) (hI : Inv σ q)
    (hp : σ1.pool = σ.pool) (hd : σ1.dpc = σ.dpc)
    (ha : σ1.accepted = σ.accepted) (hdq : σ1.dequeued = σ.dequeued)
    (hc : σ1.completed = σ.completed)
    (ho : owned σ1.pthreads = owned σ.pthreads)
    (hl : σ1.pthreads.length = σ.pthreads.length)
    (he : ∀ k : Nat, σ.pthreads[k]? = some Worker.exited → σ1.pthreads[k]? = some Worker.exited) :
    Inv σ1 q := by
  have h1 := hI.queue
  have h2 := hI.nodup
  have h3 := hI.alloc
  have h4 := hI.fifo
  have h5 := hI.done
  have h6 := hI.solo
  have h7 := hI.nworkers
  exact {
    queue := by rw [hp]; exact h1
    nodup := by rw [ho]; exact h2
    alloc := by rw [ho, hp]; exact h3
    fifo := by rw [hp, hdq, ha]; exact h4
    done := by rw [hp, hdq, hc, ho]; exact h5
    solo := by rw [hp, hdq, hc, ho, hl]; exact h6
    nworkers := by rw [hp, hl]; exact h7
    flags := FlagsOk_update σ σ1 q q hI.flags hd (by rw [hp]) (by rw [hp]) hl he (fun _ => rfl) }

theorem inv_add (σ σ1 : Sys) (q : List Nat) (who : Option Nat) (cb arg m : Nat)
    (hI : Inv σ q) (h : step σ (.add who cb arg m) = some σ1) : ∃ q1, Inv σ1 q1 := by
  simp only [step] at h
  split_ifs at h with hr hc hf
  by_cases habort : cb = 0 ∨ arg = 0
  · rw [add_job_abort _ _ _ _ habort] at h
    cases h
  push_neg at habort
  by_cases hclosed : σ.pool.queue_close ≠ 0 ∨ σ.pool.pool_close ≠ 0
  · rw [add_job_closed _ _ _ _ habort.1 habort.2 hclosed] at h
    simp only [Option.some.injEq] at h
    subst h
    exact ⟨q, Inv_same_pool σ _ q hI rfl rfl (by simp) rfl rfl (owned_resume _ _)
      (length_resume _ _) (fun k hk => exited_resume _ _ k hk)⟩
  push_neg at hclosed
  by_cases hfull : σ.pool.queue_cur_num = σ.pool.queue_max_num
  · rw [add_job_full _ _ _ _ habort.1 habort.2 hclosed.1 hclosed.2 hfull] at h
    simp only [Option.some.injEq] at h
    subst h
    exact ⟨q, Inv_same_pool σ _ q hI rfl rfl rfl rfl rfl (owned_park _ _ _ _)
      (length_park _ _ _ _) (fun k hk => exited_park _ _ _ _ k hk)⟩
  by_cases hm : m = 0
  · subst hm
    rw [add_job_nomem _ _ _ habort.1 habort.2 hclosed.1 hclosed.2 hfull] at h
    simp only [Option.some.injEq] at h
    subst h
    exact ⟨q, Inv_same_pool σ _ q hI rfl rfl (by simp) rfl rfl (owned_resume _ _)
      (length_resume _ _) (fun k hk => exited_resume _ _ k hk)⟩
  have hfresh : read σ.pool.mem m = none := by
    cases hrd : read σ.pool.mem m with
    | none => rfl
    | some j => exact absurd ⟨hm, by simp [hrd]⟩ hf
  obtain ⟨pool1, ev, hres, hq1, _, hjob, hnew, halloc, hqc, hpc, htn, _, _⟩ :=
    add_job_ok σ.pool q cb arg m hI.queue habort.1 habort.2 hclosed.1 hclosed.2 hfull hm hfresh
  rw [hres] at h
  simp only [if_true, Option.some.injEq] at h
  subst h
  have hne : ∀ x, (read σ.pool.mem x).isSome → x ≠ m := by
    intro x hx e
    subst e
    rw [hfresh] at hx
    cases hx
  have hown : ∀ x ∈ owned σ.pthreads, job_of pool1.mem x = job_of σ.pool.mem x :=
    fun x hx => hjob x (hne x (hI.alloc x hx))
  have hqj : ∀ x ∈ q, job_of pool1.mem x = job_of σ.pool.mem x :=
    fun x hx => hjob x (hne x (Linked_alloc _ _ _ hI.queue.linked x hx).2)
  have hjm : job_of pool1.mem m = (cb, arg) := by
    unfold job_of
    rw [hnew]
  refine ⟨q ++ [m], ?_⟩
  exact {
    queue := hq1
    nodup := by
      simp only [owned_resume]
      rw [← List.append_assoc, List.nodup_append]
      refine ⟨hI.nodup, List.nodup_singleton m, ?_⟩
      intro a ha hb
      rw [List.mem_singleton] at hb
      subst hb
      rcases List.mem_append.1 ha with ha | ha
      · exact hne a (hI.alloc a ha) rfl
      · exact hne a (Linked_alloc _ _ _ hI.queue.linked a ha).2 rfl
    alloc := by
      simp only [owned_resume]
      exact fun a ha => halloc a (hI.alloc a ha)
    fifo := by
      simp only [List.map_append, List.map_cons, List.map_nil, hjm]
      rw [map_job_of_congr _ _ _ hqj, ← List.append_assoc, hI.fifo]
    done := by
      simp only [owned_resume]
      rw [map_job_of_congr _ _ _ hown]
      exact hI.done
    solo := by
      simp only [owned_resume, length_resume]
      rw [map_job_of_congr _ _ _ hown]
      exact hI.solo
    nworkers := by
      simp only [length_resume]
      rw [htn]
      exact hI.nworkers
    flags := FlagsOk_update σ _ q (q ++ [m]) hI.flags rfl hqc hpc (length_resume _ _)
      (fun k hk => exited_resume _ _ k hk) (fun hx => absurd hclosed.2 hx) }

theorem inv_work (σ σ1 : Sys) (q : List Nat) (i : Nat)
    (hI : Inv σ q) (h : step σ (.work i) = some σ1) : ∃ q1, Inv σ1 q1 := by
  simp only [step] at h
  split_ifs at h with hr hi
  have hidle : σ.pthreads[i]? = some Worker.idle := not_not.1 hi
  by_cases hpc : σ.pool.pool_close = 0
  · by_cases h0 : σ.pool.queue_cur_num = 0
    · rw [function_wait _ h0 hpc] at h
      simp only [Option.some.injEq] at h
      subst h
      exact ⟨q, hI⟩
    · obtain ⟨a, q1, j, pool1, ev, hq, hj, hres, hq1, _, hmem, hqc, hpc1, htn, _, _⟩ :=
        function_ok σ.pool q hI.queue hpc h0
      rw [hres] at h
      simp only [hmem, hj, Option.some.injEq] at h
      subst h
      subst hq
      have hperm := owned_set_gain σ.pthreads i a Worker.idle (Worker.running a) hidle rfl rfl
      have hja : job_of σ.pool.mem a = (j.callback_function, j.arg) := by
        unfold job_of
        rw [hj]
      refine ⟨q1, ?_⟩
      exact {
        queue := hq1
        nodup := by
          have h1 : (a :: owned σ.pthreads ++ q1).Perm (owned σ.pthreads ++ a :: q1) := by
            have h2 : (owned σ.pthreads ++ a :: q1).Perm (a :: (owned σ.pthreads ++ q1)) :=
              List.perm_middle
            simpa using h2.symm
          exact ((List.Perm.append_right q1 hperm).trans h1).nodup_iff.2 hI.nodup
        alloc := by
          intro x hx
          simp only [hmem]
          rcases List.mem_cons.1 (hperm.subset hx) with rfl | hx
          · simp [hj]
          · exact hI.alloc x hx
        fifo := by
          simp only [hmem]
          rw [← hI.fifo, List.map_cons, hja, List.append_assoc]
          rfl
        done := by
          simp only [hmem]
          have h1 := (hperm.map (job_of σ.pool.mem)).append_left σ.completed
          refine h1.trans ?_
          rw [List.map_cons, hja]
          have h2 : (σ.completed ++ (j.callback_function, j.arg)
              :: (owned σ.pthreads).map (job_of σ.pool.mem)).Perm
              ((σ.completed ++ (owned σ.pthreads).map (job_of σ.pool.mem))
                ++ [(j.callback_function, j.arg)]) := by
            rw [List.append_assoc]
            exact List.Perm.append_left _ (List.perm_append_singleton _ _).symm
          exact h2.trans (List.Perm.append_right _ hI.done)
        solo := by
          intro hlen
          simp only [List.length_set, hmem] at hlen ⊢
          have hs := hI.solo hlen
          have hws : σ.pthreads = [Worker.idle] := by
            cases hw : σ.pthreads with
            | nil => rw [hw] at hidle; simp at hidle
            | cons w ws =>
              rw [hw] at hlen hidle
              cases ws with
              | nil =>
                cases i with
                | zero => simpa using hidle
                | succ i => simp at hidle
              | cons w2 ws => simp at hlen
          rw [hws] at hs ⊢
          cases i with
          | zero =>
            simp only [owned, List.filterMap_cons, List.filterMap_nil, Worker.job?, List.map_nil,
              List.append_nil, List.set_cons_zero, List.map_cons] at hs ⊢
            rw [hs, hja]
          | succ i => rw [hws] at hidle; simp at hidle
        nworkers := by
          simp only [List.length_set]
          rw [htn]
          exact hI.nworkers
        flags := FlagsOk_update σ _ (a :: q1) q1 hI.flags rfl hqc hpc1 (List.length_set _ _ _)
          (fun k hk => exited_set _ i k _ _ hidle (by simp) hk) (fun hx => absurd hpc hx) }
  · rw [function_exit _ hpc] at h
    simp only [Option.some.injEq] at h
    subst h
    exact ⟨q, Inv_same_pool σ _ q hI rfl rfl rfl rfl rfl
      (owned_set_same _ i _ _ hidle rfl) (List.length_set _ _ _)
      (fun k hk => exited_set _ i k _ _ hidle (by simp) hk)⟩

theorem inv_finish (σ σ1 : Sys) (q : List Nat) (i : Nat)
    (hI : Inv σ q) (h : step σ (.finish i) = some σ1) : ∃ q1, Inv σ1 q1 := by
  simp only [step] at h
  split_ifs at h with hr
  cases hrun : σ.pthreads[i]? with
  | none => rw [hrun] at h; cases h
  | some w =>
  rw [hrun] at h
  cases w with
  | idle => cases h
  | exited => cases h
  | submitting p c a => cases h
  | running pjob =>
  simp only at h
  unfold run_job at h
  cases hj : read σ.pool.mem pjob with
  | none => rw [hj] at h; cases h
  | some j =>
    rw [hj] at h
    simp only [Option.some.injEq] at h
    subst h
    have hperm := owned_set_lose σ.pthreads i pjob (Worker.running pjob) Worker.idle hrun rfl rfl
    have hnd : (pjob :: (owned (σ.pthreads.set i Worker.idle) ++ q)).Nodup :=
      (List.Perm.append_right q hperm).nodup_iff.1 hI.nodup
    obtain ⟨hnot, hnd1⟩ := List.nodup_cons.1 hnd
    have hrd : ∀ x, x ≠ pjob → read (free_job σ.pool.mem pjob) x = read σ.pool.mem x := by
      intro x hx
      rw [read_free_job, if_neg hx]
    have hown : ∀ x ∈ owned (σ.pthreads.set i Worker.idle),
        job_of (free_job σ.pool.mem pjob) x = job_of σ.pool.mem x := by
      intro x hx
      apply job_of_congr
      apply hrd
      intro e
      subst e
      exact hnot (List.mem_append_left _ hx)
    have hqr : ∀ x ∈ q, read (free_job σ.pool.mem pjob) x = read σ.pool.mem x := by
      intro x hx
      apply hrd
      intro e
      subst e
      exact hnot (List.mem_append_right _ hx)
    have hja : job_of σ.pool.mem pjob = (j.callback_function, j.arg) := by
      unfold job_of
      rw [hj]
    have hcomp : ((σ.completed ++ [(j.callback_function, j.arg)])
        ++ (owned (σ.pthreads.set i Worker.idle)).map (job_of σ.pool.mem)).Perm
        (σ.completed ++ (owned σ.pthreads).map (job_of σ.pool.mem)) := by
      rw [List.append_assoc]
      apply List.Perm.append_left
      have := (hperm.map (job_of σ.pool.mem)).symm
      rw [List.map_cons, hja] at this
      exact this
    refine ⟨q, ?_⟩
    exact {
      queue := {
        max_nonneg := hI.queue.max_nonneg
        max_le := hI.queue.max_le
        linked := Linked_congr _ _ _ _ hqr hI.queue.linked
        count := hI.queue.count
        tail_last := hI.queue.tail_last
        le_max := hI.queue.le_max
        nodup := hI.queue.nodup }
      nodup := hnd1
      alloc := by
        intro x hx
        have hx1 : x ≠ pjob := by
          intro e
          subst e
          exact hnot (List.mem_append_left _ hx)
        simp only [hrd x hx1]
        exact hI.alloc x (hperm.symm.subset (List.mem_cons_of_mem _ hx))
      fifo := by
        simp only
        rw [map_job_of_congr _ _ _ (fun x hx => job_of_congr _ _ _ (hqr x hx))]
        exact hI.fifo
      done := by
        simp only
        rw [map_job_of_congr _ _ _ hown]
        exact hcomp.trans hI.done
      solo := by
        intro hlen
        simp only [List.length_set] at hlen ⊢
        have hs := hI.solo hlen
        rw [map_job_of_congr _ _ _ hown]
        have hws : σ.pthreads = [Worker.running pjob] := by
          cases hw : σ.pthreads with
          | nil => rw [hw] at hrun; simp at hrun
          | cons w ws =>
            rw [hw] at hlen hrun
            cases ws with
            | nil =>
              cases i with
              | zero => simpa using hrun
              | succ i => simp at hrun
            | cons w2 ws => simp at hlen
        rw [hws] at hs ⊢
        cases i with
        | zero =>
          simp only [owned, List.filterMap_cons, List.filterMap_nil, Worker.job?, List.map_nil,
            List.append_nil, List.set_cons_zero, List.map_cons] at hs ⊢
          rw [← hs, hja]
        | succ i => rw [hws] at hrun; simp at hrun
      nworkers := by
        simp only [List.length_set]
        exact hI.nworkers
      flags := FlagsOk_update σ _ q q hI.flags rfl rfl rfl (List.length_set _ _ _)
        (fun k hk => exited_set _ i k _ _ hrun (by simp) hk) (fun _ => rfl) }

/-- The invariant carries over to a state that differs only in the closing
flags and in where the destroying thread stands, when those two fit. -/
theorem Inv_flags (σ σ1 : Sys) (q : List Nat) (hI : Inv σ q)
    (hmem : σ1.pool.mem = σ.pool.mem) (hhead : σ1.pool.head = σ.pool.head)
    (htail : σ1.pool.tail = σ.pool.tail)
    (hcur : σ1.pool.queue_cur_num = σ.pool.queue_cur_num)
    (hmax : σ1.pool.queue_max_num = σ.pool.queue_max_num)
    (htn : σ1.pool.thread_num = σ.pool.thread_num)
    (hws : σ1.pthreads = σ.pthreads)
    (ha : σ1.accepted = σ.accepted) (hdq : σ1.dequeued = σ.dequeued)
    (hc : σ1.completed = σ.completed) (hf : FlagsOk σ1 q) : Inv σ1 q := by
  have h1 := hI.queue
  have h2 := hI.nodup
  have h3 := hI.alloc
  have h4 := hI.fifo
  have h5 := hI.done
  have h6 := hI.solo
  have h7 := hI.nworkers
  exact {
    queue := {
      max_nonneg := by rw [hmax]; exact h1.max_nonneg
      max_le := by rw [hmax]; exact h1.max_le
      linked := by rw [hmem, hhead]; exact h1.linked
      count := by rw [hcur]; exact h1.count
      tail_last := by rw [htail]; exact h1.tail_last
      le_max := by rw [hmax]; exact h1.le_max
      nodup := h1.nodup }
    nodup := by rw [hws]; exact h2
    alloc := by rw [hws, hmem]; exact h3
    fifo := by rw [hmem, hdq, ha]; exact h4
    done := by rw [hmem, hdq, hc, hws]; exact h5
    solo := by rw [hmem, hdq, hc, hws]; exact h6
    nworkers := by rw [htn, hws]; exact h7
    flags := hf }

theorem destroy_first_wait (pool : threadpool) (h : pool.queue_cur_num ≠ 0) :
    destroy_first pool = .wait1 pool := by
  unfold destroy_first
  rw [if_pos h]

theorem destroy_first_done (pool : threadpool) (h : pool.queue_cur_num = 0) :
    destroy_first pool = .unlocked { pool with pool_close := 1 }
      [Wake.broadcast Cond.queue_not_empty, Wake.broadcast Cond.queue_not_full] := by
  unfold destroy_first destroy_second
  simp [h]

theorem destroy_closed (pool : threadpool)
    (h : pool.queue_close ≠ 0 ∨ pool.pool_close ≠ 0) :
    threadpool_destroy pool = .ret (-1) pool := by
  unfold threadpool_destroy
  rw [if_pos h]

theorem destroy_open (pool : threadpool)
    (hqc : pool.queue_close = 0) (hpc : pool.pool_close = 0) :
    threadpool_destroy pool = destroy_first { pool with queue_close := 1 } := by
  unfold threadpool_destroy
  rw [if_neg (by simp [hqc, hpc])]

theorem inv_destroy (σ σ1 : Sys) (q : List Nat)
    (hI : Inv σ q) (h : step σ .destroy = some σ1) : ∃ q1, Inv σ1 q1 := by
  simp only [step] at h
  by_cases hr : σ.dpc = DestroyPc.returned
  · rw [if_pos hr] at h
    cases h
  rw [if_neg hr] at h
  by_cases hclosed : σ.pool.queue_close ≠ 0 ∨ σ.pool.pool_close ≠ 0
  · rw [destroy_closed _ hclosed] at h
    simp only [Option.some.injEq] at h
    subst h
    exact ⟨q, hI⟩
  push_neg at hclosed
  have hidle := FlagsOk_open σ q hI.flags hclosed.1
  rw [destroy_open _ hclosed.1 hclosed.2] at h
  by_cases h0 : σ.pool.queue_cur_num = 0
  · rw [destroy_first_done { σ.pool with queue_close := 1 } h0] at h
    simp only [hidle, if_true, Option.some.injEq] at h
    subst h
    refine ⟨q, Inv_flags σ _ q hI rfl rfl rfl rfl rfl rfl rfl rfl rfl rfl ?_⟩
    have hq : q = [] := by
      have := hI.queue.count
      rw [h0] at this
      exact List.length_eq_zero.1 (by omega)
    simp [FlagsOk, hq]
  · rw [destroy_first_wait { σ.pool with queue_close := 1 } h0] at h
    simp only [hidle, if_true, Option.some.injEq] at h
    subst h
    refine ⟨q, Inv_flags σ _ q hI rfl rfl rfl rfl rfl rfl rfl rfl rfl rfl ?_⟩
    simp [FlagsOk, hclosed.2]

theorem inv_wake (σ σ1 : Sys) (q : List Nat)
    (hI : Inv σ q) (h : step σ .destroy_wake = some σ1) : ∃ q1, Inv σ1 q1 := by
  simp only [step] at h
  have hf := hI.flags
  unfold FlagsOk at hf
  cases hd : σ.dpc with
  | idle => rw [hd] at h; cases h
  | joining i => rw [hd] at h; cases h
  | returned => rw [hd] at h; cases h
  | wait2 => rw [hd] at hf; cases hf
  | wait1 =>
    rw [hd] at h hf
    simp only at h hf
    by_cases h0 : σ.pool.queue_cur_num = 0
    · rw [destroy_first_done _ h0] at h
      simp only [Option.some.injEq] at h
      subst h
      refine ⟨q, Inv_flags σ _ q hI rfl rfl rfl rfl rfl rfl rfl rfl rfl rfl ?_⟩
      have hq : q = [] := by
        have := hI.queue.count
        rw [h0] at this
        exact List.length_eq_zero.1 (by omega)
      simp [FlagsOk, hq, hf.1]
    · rw [destroy_first_wait _ h0] at h
      simp only [Option.some.injEq] at h
      subst h
      refine ⟨q, Inv_flags σ _ q hI rfl rfl rfl rfl rfl rfl rfl rfl rfl rfl ?_⟩
      simp [FlagsOk, hf.1, hf.2]

theorem free_residual_null (fuel : Nat) (mem : Heap) :
    free_residual fuel 0 mem = some (0, mem) := by
  unfold free_residual
  simp

theorem inv_join (σ σ1 : Sys) (q : List Nat)
    (hI : Inv σ q) (h : step σ .join = some σ1) : ∃ q1, Inv σ1 q1 := by
  simp only [step] at h
  have hf := hI.flags
  unfold FlagsOk at hf
  cases hd : σ.dpc with
  | idle => rw [hd] at h; cases h
  | wait1 => rw [hd] at h; cases h
  | wait2 => rw [hd] at h; cases h
  | returned => rw [hd] at h; cases h
  | joining i =>
    rw [hd] at h hf
    simp only at h hf
    obtain ⟨hqc, hpc, hq, hex⟩ := hf
    split_ifs at h with hlt hw
    · simp only [Option.some.injEq] at h
      subst h
      refine ⟨q, Inv_flags σ _ q hI rfl rfl rfl rfl rfl rfl rfl rfl rfl rfl ?_⟩
      simp only [FlagsOk]
      refine ⟨hqc, hpc, hq, ?_⟩
      intro k hk
      rcases Nat.lt_succ_iff_lt_or_eq.1 hk with hk | hk
      · exact hex k hk
      · rw [hk]; exact hw
    · have hhead : σ.pool.head = 0 := by
        have := hI.queue.linked
        rw [hq] at this
        exact this
      rw [hhead, free_residual_null] at h
      simp only [Option.some.injEq] at h
      subst h
      refine ⟨q, Inv_flags σ _ q hI rfl hhead.symm rfl rfl rfl rfl rfl rfl rfl rfl ?_⟩
      simp only [FlagsOk]
      refine ⟨hqc, hpc, hq, ?_⟩
      intro k hk
      apply hex
      have := hI.nworkers
      omega

/-- Every action keeps the invariant. -/
theorem inv_step (σ σ1 : Sys) (q : List Nat) (l : Label)
    (hI : Inv σ q) (h : step σ l = some σ1) : ∃ q1, Inv σ1 q1 := by
  cases l with
  | add who cb arg m => exact inv_add σ σ1 q who cb arg m hI h
  | work i => exact inv_work σ σ1 q i hI h
  | finish i => exact inv_finish σ σ1 q i hI h
  | destroy => exact inv_destroy σ σ1 q hI h
  | destroy_wake => exact inv_wake σ σ1 q hI h
  | join => exact inv_join σ σ1 q hI h

/-- The pool that `threadpool_init` returns satisfies the invariant with an
empty queue, for a capacity that is a non-negative `int`. -/
theorem inv_init (thread_num queue_max_num : Int) (e : InitEnv) (σ0 : Sys)
    (hmax : 0 ≤ queue_max_num) (hint : queue_max_num ≤ INT_MAX)
    (h : threadpool_init thread_num queue_max_num e = some σ0) : Inv σ0 [] := by
  unfold threadpool_init at h
  split_ifs at h
  simp only [Option.some.injEq] at h
  subst h
  have hown : owned (List.replicate thread_num.toNat Worker.idle) = [] := by
    unfold owned
    rw [List.filterMap_eq_nil_iff]
    intro w hw
    rw [List.eq_of_mem_replicate hw]
    rfl
  exact {
    queue := {
      max_nonneg := hmax
      max_le := hint
      linked := rfl
      count := rfl
      tail_last := rfl
      le_max := by simpa using hmax
      nodup := List.nodup_nil }
    nodup := by simp [hown]
    alloc := by simp [hown]
    fifo := rfl
    done := by simp [hown]
    solo := by simp [hown]
    nworkers := by simp
    flags := by simp [FlagsOk] }

/-- Every reachable state of a pool made by `threadpool_init` satisfies the
invariant, and keeps the thread count and the capacity it was made with. -/
theorem inv_reachable (thread_num queue_max_num : Int) (e : InitEnv) (σ0 σ : Sys)
    (hmax : 0 ≤ queue_max_num) (hint : queue_max_num ≤ INT_MAX)
    (h : threadpool_init thread_num queue_max_num e = some σ0)
    (hr : Reachable σ0 σ) : ∃ q, Inv σ q := by
  induction hr with
  | start => exact ⟨[], inv_init thread_num queue_max_num e σ0 hmax hint h⟩
  | next l _ hs ih =>
    obtain ⟨q, hq⟩ := ih
    exact inv_step _ _ q l hq hs

/-! ## What the passes leave alone -/

theorem add_job_frame (pool pool1 : threadpool) (cb arg m : Nat) (code : Int) (ev : List Wake)
    (h : threadpool_add_job pool cb arg m = .ret code pool1 ev) :
    pool1.thread_num = pool.thread_num ∧ pool1.queue_max_num = pool.queue_max_num
      ∧ pool1.queue_close = pool.queue_close ∧ pool1.pool_close = pool.pool_close := by
  unfold threadpool_add_job at h
  split_ifs at h
  · cases h; simp
  · cases h; simp
  · cases h; simp
  · dsimp only at h
    split at h
    · cases h
    · cases h; simp

theorem add_job_ret_zero (pool pool1 : threadpool) (cb arg m : Nat) (ev : List Wake)
    (h : threadpool_add_job pool cb arg m = .ret 0 pool1 ev) :
    cb ≠ 0 ∧ arg ≠ 0 ∧ m ≠ 0 ∧ pool.queue_close = 0 ∧ pool.pool_close = 0
      ∧ pool.queue_cur_num ≠ pool.queue_max_num := by
  unfold threadpool_add_job at h
  split_ifs at h with h1 h2 h3 h4 h5 h6
  · cases h
  · cases h
  · push_neg at h1 h2 h3
    by_cases hf : pool.queue_cur_num = pool.queue_max_num
    · exact absurd (h2 hf) (by intro hh; rcases hh with hh | hh <;> simp_all)
    · simp_all
  · push_neg at h1 h2 h3
    by_cases hf : pool.queue_cur_num = pool.queue_max_num
    · exact absurd (h2 hf) (by intro hh; rcases hh with hh | hh <;> simp_all)
    · simp_all

theorem add_job_code (pool pool1 : threadpool) (cb arg m : Nat) (code : Int) (ev : List Wake)
    (h : threadpool_add_job pool cb arg m = .ret code pool1 ev) : code = 0 ∨ code = -1 := by
  unfold threadpool_add_job at h
  split_ifs at h
  · cases h; simp
  · cases h; simp
  · cases h; simp
  · dsimp only at h
    split at h
    · cases h
    · cases h; simp

theorem function_frame (pool pool1 : threadpool) (pjob : Nat) (ev : List Wake)
    (h : threadpool_function pool = .run pjob pool1 ev) :
    pool1.thread_num = pool.thread_num ∧ pool1.queue_max_num = pool.queue_max_num
      ∧ pool1.queue_close = pool.queue_close ∧ pool1.pool_close = pool.pool_close
      ∧ pool1.mem = pool.mem := by
  unfold threadpool_function at h
  dsimp only at h
  split_ifs at h <;>
    first
    | (cases h; simp)
    | (split at h
       · cases h
       · cases h; simp)

theorem destroy_second_frame (pool : threadpool) :
    (destroy_second pool).pool.thread_num = pool.thread_num
      ∧ (destroy_second pool).pool.queue_max_num = pool.queue_max_num
      ∧ (destroy_second pool).pool.queue_close = pool.queue_close
      ∧ (pool.pool_close ≠ 0 → (destroy_second pool).pool.pool_close ≠ 0) := by
  unfold destroy_second
  split_ifs <;> simp [DestroyResult.pool]

theorem destroy_first_frame (pool : threadpool) :
    (destroy_first pool).pool.thread_num = pool.thread_num
      ∧ (destroy_first pool).pool.queue_max_num = pool.queue_max_num
      ∧ (destroy_first pool).pool.queue_close = pool.queue_close
      ∧ (pool.pool_close ≠ 0 → (destroy_first pool).pool.pool_close ≠ 0) := by
  unfold destroy_first
  split_ifs
  · simp [DestroyResult.pool]
  · obtain ⟨h1, h2, h3, _⟩ := destroy_second_frame { pool with pool_close := 1 }
    refine ⟨h1, h2, h3, fun _ => ?_⟩
    unfold destroy_second
    split_ifs <;> simp [DestroyResult.pool]

theorem destroy_frame (pool : threadpool) :
    (threadpool_destroy pool).pool.thread_num = pool.thread_num
      ∧ (threadpool_destroy pool).pool.queue_max_num = pool.queue_max_num
      ∧ (pool.queue_close ≠ 0 → (threadpool_destroy pool).pool.queue_close ≠ 0)
      ∧ (pool.pool_close ≠ 0 → (threadpool_destroy pool).pool.pool_close ≠ 0) := by
  unfold threadpool_destroy
  split_ifs with h
  · simp [DestroyResult.pool]
  · obtain ⟨h1, h2, h3, h4⟩ := destroy_first_frame { pool with queue_close := 1 }
    refine ⟨h1, h2, fun _ => ?_, fun hp => absurd (Or.inr hp) h⟩
    rw [h3]
    simp

/-- No action changes `thread_num` or `queue_max_num`, no action clears a
closing flag, and the actions of `threadpool_add_job` and of the worker loop
leave both flags as they are. -/
theorem step_frame (σ σ1 : Sys) (l : Label) (h : step σ l = some σ1) :
    σ1.pool.thread_num = σ.pool.thread_num
      ∧ σ1.pool.queue_max_num = σ.pool.queue_max_num
      ∧ (σ.pool.queue_close ≠ 0 → σ1.pool.queue_close ≠ 0)
      ∧ (σ.pool.pool_close ≠ 0 → σ1.pool.pool_close ≠ 0)
      ∧ (l.by_destroy = false → σ1.pool.queue_close = σ.pool.queue_close
          ∧ σ1.pool.pool_close = σ.pool.pool_close) := by
  cases l with
  | add who cb arg m =>
    simp only [step] at h
    split_ifs at h
    cases hr : threadpool_add_job σ.pool cb arg m with
    | abort => rw [hr] at h; cases h
    | fault => rw [hr] at h; cases h
    | wait =>
      rw [hr] at h
      simp only [Option.some.injEq] at h
      subst h
      simp
    | ret code pool ev =>
      rw [hr] at h
      simp only [Option.some.injEq] at h
      subst h
      obtain ⟨h1, h2, h3, h4⟩ := add_job_frame _ _ _ _ _ _ _ hr
      simp only [h1, h2, h3, h4]
      simp
  | work i =>
    simp only [step] at h
    split_ifs at h
    cases hr : threadpool_function σ.pool with
    | fault => rw [hr] at h; cases h
    | wait =>
      rw [hr] at h
      simp only [Option.some.injEq] at h
      subst h
      simp
    | exit =>
      rw [hr] at h
      simp only [Option.some.injEq] at h
      subst h
      simp
    | run pjob pool ev =>
      rw [hr] at h
      obtain ⟨h1, h2, h3, h4, _⟩ := function_frame _ _ _ _ hr
      simp only at h
      split at h
      · cases h
      · simp only [Option.some.injEq] at h
        subst h
        simp only [h1, h2, h3, h4]
        simp
  | finish i =>
    simp only [step] at h
    split_ifs at h
    cases hrun : σ.pthreads[i]? with
    | none => rw [hrun] at h; cases h
    | some w =>
      rw [hrun] at h
      cases w with
      | idle => cases h
      | exited => cases h
      | submitting p c a => cases h
      | running pjob =>
        simp only at h
        cases hj : run_job σ.pool.mem pjob with
        | none => rw [hj] at h; cases h
        | some r =>
          rw [hj] at h
          simp only [Option.some.injEq] at h
          subst h
          simp
  | destroy =>
    simp only [step] at h
    by_cases hret : σ.dpc = DestroyPc.returned
    · rw [if_pos hret] at h
      cases h
    rw [if_neg hret] at h
    have hf := destroy_frame σ.pool
    cases hr : threadpool_destroy σ.pool with
    | ret code pool =>
      rw [hr] at h
      simp only [Option.some.injEq] at h
      subst h
      simp [Label.by_destroy]
    | wait1 pool =>
      rw [hr] at h hf
      split_ifs at h
      simp only [Option.some.injEq] at h
      subst h
      simpa [DestroyResult.pool, Label.by_destroy] using hf
    | wait2 pool =>
      rw [hr] at h hf
      split_ifs at h
      simp only [Option.some.injEq] at h
      subst h
      simpa [DestroyResult.pool, Label.by_destroy] using hf
    | unlocked pool ev =>
      rw [hr] at h hf
      split_ifs at h
      simp only [Option.some.injEq] at h
      subst h
      simpa [DestroyResult.pool, Label.by_destroy] using hf
  | destroy_wake =>
    simp only [step] at h
    cases hd : σ.dpc with
    | idle => rw [hd] at h; cases h
    | joining i => rw [hd] at h; cases h
    | returned => rw [hd] at h; cases h
    | wait1 =>
      rw [hd] at h
      simp only at h
      have hf := destroy_first_frame σ.pool
      cases hr : destroy_first σ.pool with
      | ret code pool => rw [hr] at h; cases h
      | wait1 pool =>
        rw [hr] at h hf
        simp only [Option.some.injEq] at h
        subst h
        simp only [DestroyResult.pool] at hf
        obtain ⟨h1, h2, h3, h4⟩ := hf
        simp only [h1, h2, h3]
        exact ⟨trivial, trivial, id, h4, by simp [Label.by_destroy]⟩
      | wait2 pool =>
        rw [hr] at h hf
        simp only [Option.some.injEq] at h
        subst h
        simp only [DestroyResult.pool] at hf
        obtain ⟨h1, h2, h3, h4⟩ := hf
        simp only [h1, h2, h3]
        exact ⟨trivial, trivial, id, h4, by simp [Label.by_destroy]⟩
      | unlocked pool ev =>
        rw [hr] at h hf
        simp only [Option.some.injEq] at h
        subst h
        simp only [DestroyResult.pool] at hf
        obtain ⟨h1, h2, h3, h4⟩ := hf
        simp only [h1, h2, h3]
        exact ⟨trivial, trivial, id, h4, by simp [Label.by_destroy]⟩
    | wait2 =>
      rw [hd] at h
      simp only at h
      have hf := destroy_second_frame σ.pool
      cases hr : destroy_second σ.pool with
      | ret code pool => rw [hr] at h; cases h
      | wait1 pool =>
        rw [hr] at h hf
        simp only [Option.some.injEq] at h
        subst h
        simp only [DestroyResult.pool] at hf
        obtain ⟨h1, h2, h3, h4⟩ := hf
        simp only [h1, h2, h3]
        exact ⟨trivial, trivial, id, h4, by simp [Label.by_destroy]⟩
      | wait2 pool =>
        rw [hr] at h hf
        simp only [Option.some.injEq] at h
        subst h
        simp only [DestroyResult.pool] at hf
        obtain ⟨h1, h2, h3, h4⟩ := hf
        simp only [h1, h2, h3]
        exact ⟨trivial, trivial, id, h4, by simp [Label.by_destroy]⟩
      | unlocked pool ev =>
        rw [hr] at h hf
        simp only [Option.some.injEq] at h
        subst h
        simp only [DestroyResult.pool] at hf
        obtain ⟨h1, h2, h3, h4⟩ := hf
        simp only [h1, h2, h3]
        exact ⟨trivial, trivial, id, h4, by simp [Label.by_destroy]⟩
  | join =>
    simp only [step] at h
    cases hd : σ.dpc with
    | idle => rw [hd] at h; cases h
    | wait1 => rw [hd] at h; cases h
    | wait2 => rw [hd] at h; cases h
    | returned => rw [hd] at h; cases h
    | joining i =>
      rw [hd] at h
      simp only at h
      split_ifs at h
      · simp only [Option.some.injEq] at h
        subst h
        simp [Label.by_destroy]
      · split at h
        · cases h
        · simp only [Option.some.injEq] at h
          subst h
          simp [Label.by_destroy]

theorem reachable_params (σ0 σ : Sys) (hr : Reachable σ0 σ) :
    σ.pool.thread_num = σ0.pool.thread_num ∧ σ.pool.queue_max_num = σ0.pool.queue_max_num := by
  induction hr with
  | start => exact ⟨rfl, rfl⟩
  | next l _ hs ih =>
    obtain ⟨h1, h2, _⟩ := step_frame _ _ l hs
    exact ⟨h1.trans ih.1, h2.trans ih.2⟩

theorem init_params (thread_num queue_max_num : Int) (e : InitEnv) (σ0 : Sys)
    (h : threadpool_init thread_num queue_max_num e = some σ0) :
    σ0.pool.thread_num = thread_num ∧ σ0.pool.queue_max_num = queue_max_num := by
  unfold threadpool_init at h
  split_ifs at h
  simp only [Option.some.injEq] at h
  subst h
  exact ⟨rfl, rfl⟩

theorem reachable_trans (σ0 σ σ1 : Sys) (h : Reachable σ0 σ) (h1 : Reachable σ σ1) :
    Reachable σ0 σ1 := by
  induction h1 with
  | start => exact h
  | next l _ hs ih => exact Reachable.next l ih hs

/-- A state produced by running a list of actions is reachable. -/
theorem reachable_run (σ0 σ : Sys) (ls : List Label) (h : run σ0 ls = some σ) :
    Reachable σ0 σ := by
  induction ls generalizing σ0 with
  | nil =>
    simp only [run, Option.some.injEq] at h
    subst h
    exact Reachable.start
  | cons l ls ih =>
    simp only [run] at h
    cases hs : step σ0 l with
    | none => rw [hs] at h; cases h
    | some σ1 =>
      rw [hs] at h
      exact reachable_trans _ _ _ (Reachable.next l Reachable.start hs) (ih σ1 h)

/-! ## Reachability of the sample states -/

theorem demo_init_eq : threadpool_init 2 1 InitEnv.ok = some demo_init := rfl

theorem demo_zero_eq : threadpool_init 1 0 InitEnv.ok = some demo_zero := rfl

theorem demo_busy_reachable : Reachable demo_init demo_busy :=
  reachable_run demo_init demo_busy [.add none 7 8 100, .work 0, .add none 7 9 101] rfl

theorem demo_taken_reachable : Reachable demo_init demo_taken :=
  reachable_trans _ _ _ demo_busy_reachable (reachable_run demo_busy demo_taken [.work 1] rfl)

theorem demo_closing_reachable : Reachable demo_init demo_closing :=
  reachable_trans _ _ _ demo_busy_reachable (reachable_run demo_busy demo_closing [.destroy] rfl)

theorem demo_joining_reachable : Reachable demo_init demo_joining :=
  reachable_trans _ _ _ demo_closing_reachable
    (reachable_run demo_closing demo_joining
      [.add none 7 10 102, .work 1, .destroy_wake, .finish 1, .finish 0, .work 0, .work 1] rfl)

theorem demo_done_reachable : Reachable demo_init demo_done :=
  reachable_trans _ _ _ demo_joining_reachable
    (reachable_run demo_joining demo_done [.join, .join, .join] rfl)

theorem demo_solo_init_eq : threadpool_init 1 2 InitEnv.ok = some demo_solo_init := rfl

theorem demo_solo_reachable : Reachable demo_solo_init demo_solo :=
  reachable_run demo_solo_init demo_solo
    [.add none 7 8 100, .add none 7 9 101, .work 0, .finish 0, .add none 7 10 102, .work 0] rfl

theorem demo_busy_queue : QueueOk demo_busy.pool [101] :=
  { max_nonneg := by decide
    max_le := by decide
    linked := ⟨rfl, by decide, ⟨7, 9, 0⟩, rfl, rfl⟩
    count := rfl
    tail_last := rfl
    le_max := by decide
    nodup := by decide }

/-! ## The claims -/

/-- C1: for a pool made by `threadpool_init` with `thread_num > 0` and a
capacity `queue_max_num >= 0` (an `int`), every state reachable by any
interleaving of `threadpool_add_job` passes, worker steps and
`threadpool_destroy` steps has `0 <= queue_cur_num <= queue_max_num`. -/
theorem queue_count_within_capacity (thread_num queue_max_num : Int) (e : InitEnv)
    (σ0 σ : Sys) (_hn : 0 < thread_num) (hmax : 0 ≤ queue_max_num)
    (hint : queue_max_num ≤ INT_MAX)
    (h : threadpool_init thread_num queue_max_num e = some σ0) (hr : Reachable σ0 σ) :
    0 ≤ σ.pool.queue_cur_num ∧ σ.pool.queue_cur_num ≤ queue_max_num := by
  obtain ⟨q, hI⟩ := inv_reachable thread_num queue_max_num e σ0 σ hmax hint h hr
  have h1 := (reachable_params σ0 σ hr).2
  have h2 := (init_params thread_num queue_max_num e σ0 h).2
  have h3 := hI.queue.count
  have h4 := hI.queue.le_max
  rw [h1, h2] at h4
  omega

/-- An instance of C1: the full queue of `demo_busy`, reached from `threadpool_init(2, 1)`. -/
theorem queue_count_within_capacity_witness :
    (threadpool_init 2 1 InitEnv.ok = some demo_init ∧ Reachable demo_init demo_busy)
      ∧ 0 ≤ demo_busy.pool.queue_cur_num ∧ demo_busy.pool.queue_cur_num ≤ 1 :=
  ⟨⟨demo_init_eq, demo_busy_reachable⟩,
    queue_count_within_capacity 2 1 InitEnv.ok demo_init demo_busy (by decide) (by decide)
      (by decide) demo_init_eq demo_busy_reachable⟩

/-- C2: in every reachable state the jobs dequeued so far, followed by the
jobs still linked from `head`, are the jobs for which `threadpool_add_job`
returned 0, in the order of those calls; so no accepted job is lost or
dequeued twice, and with a single worker the callbacks that have returned,
followed by the one that is running, are the dequeued jobs in that same
order. -/
theorem fifo_exactly_once (thread_num queue_max_num : Int) (e : InitEnv)
    (σ0 σ : Sys) (_hn : 0 < thread_num) (hmax : 0 ≤ queue_max_num)
    (hint : queue_max_num ≤ INT_MAX)
    (h : threadpool_init thread_num queue_max_num e = some σ0) (hr : Reachable σ0 σ) :
    ∃ q, Linked σ.pool.mem σ.pool.head q
      ∧ σ.dequeued ++ q.map (job_of σ.pool.mem) = σ.accepted
      ∧ (thread_num = 1 →
          σ.completed ++ (owned σ.pthreads).map (job_of σ.pool.mem) ++ q.map (job_of σ.pool.mem)
            = σ.accepted) := by
  obtain ⟨q, hI⟩ := inv_reachable thread_num queue_max_num e σ0 σ hmax hint h hr
  refine ⟨q, hI.queue.linked, hI.fifo, ?_⟩
  intro h1
  have h2 := (reachable_params σ0 σ hr).1
  have h3 := (init_params thread_num queue_max_num e σ0 h).1
  have h4 := hI.nworkers
  rw [h2, h3, h1] at h4
  rw [hI.solo (by rw [h4]; decide)]
  exact hI.fifo

/-- An instance of C2 with a single worker: in `demo_solo` job (7, 8) has
completed, job (7, 9) is running and job (7, 10) is queued. -/
theorem fifo_exactly_once_witness :
    (threadpool_init 1 2 InitEnv.ok = some demo_solo_init ∧ Reachable demo_solo_init demo_solo)
      ∧ ∃ q, Linked demo_solo.pool.mem demo_solo.pool.head q
        ∧ demo_solo.dequeued ++ q.map (job_of demo_solo.pool.mem) = demo_solo.accepted
        ∧ ((1 : Int) = 1 →
          demo_solo.completed ++ (owned demo_solo.pthreads).map (job_of demo_solo.pool.mem)
            ++ q.map (job_of demo_solo.pool.mem) = demo_solo.accepted) :=
  ⟨⟨demo_solo_init_eq, demo_solo_reachable⟩,
    fifo_exactly_once 1 2 InitEnv.ok demo_solo_init demo_solo (by decide) (by decide)
      (by decide) demo_solo_init_eq demo_solo_reachable⟩

/-- C3: on a pool with `queue_close` or `pool_close` set, a call of
`threadpool_add_job` with a callback and an argument that pass its asserts
does not wait, whatever the fill level: it returns -1, issues no wake-up and
leaves every field of the pool and every job record as it was. -/
theorem add_job_rejects_when_closing (pool : threadpool) (cb arg m : Nat)
    (hcb : cb ≠ 0) (harg : arg ≠ 0)
    (h : pool.queue_close ≠ 0 ∨ pool.pool_close ≠ 0) :
    threadpool_add_job pool cb arg m = .ret (-1) pool [] :=
  add_job_closed pool cb arg m hcb harg h

/-- An instance of C3: the queue of `demo_closing` is full and `queue_close` is set. -/
theorem add_job_rejects_when_closing_witness :
    (demo_closing.pool.queue_cur_num = demo_closing.pool.queue_max_num
      ∧ demo_closing.pool.queue_close ≠ 0)
      ∧ threadpool_add_job demo_closing.pool 7 10 102 = .ret (-1) demo_closing.pool [] :=
  ⟨by decide,
    add_job_rejects_when_closing demo_closing.pool 7 10 102 (by decide) (by decide)
      (Or.inl (by decide))⟩

theorem owned_all_exited (ws : List Worker) (h : ∀ w ∈ ws, w = Worker.exited) : owned ws = [] := by
  unfold owned
  rw [List.filterMap_eq_nil_iff]
  intro w hw
  rw [h w hw]
  rfl

/-- C4: in every reachable state in which `threadpool_destroy` has returned 0,
all `thread_num` workers have terminated, the queue is empty, and the jobs
whose callback has run to completion are exactly the jobs that
`threadpool_add_job` accepted, each once. -/
theorem destroy_returns_after_all_jobs (thread_num queue_max_num : Int) (e : InitEnv)
    (σ0 σ : Sys) (_hn : 0 < thread_num) (hmax : 0 ≤ queue_max_num)
    (hint : queue_max_num ≤ INT_MAX)
    (h : threadpool_init thread_num queue_max_num e = some σ0) (hr : Reachable σ0 σ)
    (hd : σ.dpc = DestroyPc.returned) :
    (σ.pthreads.length = thread_num.toNat ∧ ∀ w ∈ σ.pthreads, w = Worker.exited)
      ∧ (σ.pool.queue_cur_num = 0 ∧ σ.pool.head = 0 ∧ σ.pool.tail = 0)
      ∧ σ.dequeued = σ.accepted
      ∧ σ.completed.Perm σ.accepted := by
  obtain ⟨q, hI⟩ := inv_reachable thread_num queue_max_num e σ0 σ hmax hint h hr
  have hf := hI.flags
  unfold FlagsOk at hf
  rw [hd] at hf
  obtain ⟨_, _, hq, hex⟩ := hf
  subst hq
  have hall : ∀ w ∈ σ.pthreads, w = Worker.exited := by
    intro w hw
    obtain ⟨k, hk, hwk⟩ := List.getElem_of_mem hw
    have := hex k hk
    rw [List.getElem?_eq_getElem hk, hwk] at this
    exact Option.some.inj this
  have hown := owned_all_exited _ hall
  have h2 := (reachable_params σ0 σ hr).1
  have h3 := (init_params thread_num queue_max_num e σ0 h).1
  have hfifo := hI.fifo
  have hdone := hI.done
  rw [hown] at hdone
  simp only [List.map_nil, List.append_nil] at hfifo hdone
  refine ⟨⟨by rw [hI.nworkers, h2, h3], hall⟩, ⟨?_, hI.queue.linked, hI.queue.tail_last⟩,
    hfifo, ?_⟩
  · simpa using hI.queue.count
  · rw [← hfifo]
    exact hdone

/-- An instance of C4: the state `demo_done`, in which `threadpool_destroy` has returned 0. -/
theorem destroy_returns_after_all_jobs_witness :
    (threadpool_init 2 1 InitEnv.ok = some demo_init ∧ Reachable demo_init demo_done
        ∧ demo_done.dpc = DestroyPc.returned)
      ∧ (demo_done.pthreads.length = (2 : Int).toNat
          ∧ ∀ w ∈ demo_done.pthreads, w = Worker.exited)
      ∧ (demo_done.pool.queue_cur_num = 0 ∧ demo_done.pool.head = 0 ∧ demo_done.pool.tail = 0)
      ∧ demo_done.dequeued = demo_done.accepted
      ∧ demo_done.completed.Perm demo_done.accepted :=
  ⟨⟨demo_init_eq, demo_done_reachable, rfl⟩,
    destroy_returns_after_all_jobs 2 1 InitEnv.ok demo_init demo_done (by decide) (by decide)
      (by decide) demo_init_eq demo_done_reachable rfl⟩

/-- C5: on an open pool a call of `threadpool_add_job` (with a callback and an
argument that pass its asserts) waits exactly when
`queue_cur_num == queue_max_num`; at capacity it returns nothing, so it
enqueues nothing; and when a worker's dequeue has made room in a full,
well-formed queue, the retried call with a successful `malloc` returns 0 and
its record is linked behind the records that were left. -/
theorem add_job_waits_exactly_when_full (pool : threadpool) (cb arg : Nat)
    (hcb : cb ≠ 0) (harg : arg ≠ 0)
    (hqc : pool.queue_close = 0) (hpc : pool.pool_close = 0) :
    (∀ m, threadpool_add_job pool cb arg m = .wait
        ↔ pool.queue_cur_num = pool.queue_max_num)
      ∧ (pool.queue_cur_num = pool.queue_max_num →
          ∀ m code pool1 ev, threadpool_add_job pool cb arg m ≠ .ret code pool1 ev)
      ∧ (∀ q pjob pool1 ev m, QueueOk pool q → pool.queue_cur_num = pool.queue_max_num →
          threadpool_function pool = .run pjob pool1 ev → m ≠ 0 → read pool1.mem m = none →
          ∃ pool2 ev2, threadpool_add_job pool1 cb arg m = .ret 0 pool2 ev2
            ∧ Linked pool1.mem pool1.head q.tail
            ∧ Linked pool2.mem pool2.head (q.tail ++ [m])
            ∧ read pool2.mem m = some ⟨cb, arg, 0⟩
            ∧ pool2.queue_cur_num = pool.queue_max_num) := by
  refine ⟨?_, ?_, ?_⟩
  · intro m
    constructor
    · intro hw
      by_contra hne
      unfold threadpool_add_job at hw
      rw [if_neg (by simp [hcb, harg]), if_neg (by simp [hne]), if_neg (by simp [hqc, hpc])] at hw
      dsimp only at hw
      split_ifs at hw
      split at hw <;> cases hw
    · exact add_job_full pool cb arg m hcb harg hqc hpc
  · intro hfull m code pool1 ev hr
    rw [add_job_full pool cb arg m hcb harg hqc hpc hfull] at hr
    cases hr
  · intro q pjob pool1 ev m hq hfull hrun hm hfresh
    have h0 : pool.queue_cur_num ≠ 0 := by
      intro h0
      rw [function_wait pool h0 hpc] at hrun
      cases hrun
    obtain ⟨a, q1, j, pool1a, eva, hqa, _, hres, hq1, hcur, _, hqc1, hpc1, _, hmax1, _⟩ :=
      function_ok pool q hq hpc h0
    rw [hres] at hrun
    cases hrun
    subst hqa
    have hnf : pool1.queue_cur_num ≠ pool1.queue_max_num := by
      rw [hcur, hmax1]; omega
    obtain ⟨pool2, ev2, hadd, hq2, hcur2, _, hnew, _⟩ :=
      add_job_ok pool1 q1 cb arg m hq1 hcb harg (hqc1.trans hqc) (hpc1.trans hpc) hnf hm hfresh
    refine ⟨pool2, ev2, hadd, hq1.linked, hq2.linked, hnew, ?_⟩
    rw [hcur2, hcur]; omega

/-- An instance of C5: a submit waits on the full queue of `demo_busy`, worker 1 takes a job, and the retried submit returns 0. -/
theorem add_job_waits_exactly_when_full_witness :
    (threadpool_add_job demo_busy.pool 7 10 102 = .wait
        ∧ ∃ ev, threadpool_function demo_busy.pool = .run 101 demo_taken.pool ev)
      ∧ ∃ pool2 ev2, threadpool_add_job demo_taken.pool 7 10 102 = .ret 0 pool2 ev2
          ∧ Linked demo_taken.pool.mem demo_taken.pool.head []
          ∧ Linked pool2.mem pool2.head [102]
          ∧ read pool2.mem 102 = some ⟨7, 10, 0⟩
          ∧ pool2.queue_cur_num = 1 :=
  ⟨⟨rfl, _, rfl⟩,
    (add_job_waits_exactly_when_full demo_busy.pool 7 10 (by decide) (by decide) rfl rfl).2.2
      [101] 101 demo_taken.pool _ 102 demo_busy_queue rfl rfl (by decide) rfl⟩

/-- The list of accepted jobs changes only in a pass of `threadpool_add_job`
that returns 0. -/
theorem step_accepted (σ σ1 : Sys) (l : Label) (h : step σ l = some σ1) :
    σ1.accepted = σ.accepted
      ∨ ∃ cb arg m pool1 ev, threadpool_add_job σ.pool cb arg m = .ret 0 pool1 ev := by
  cases l with
  | add who cb arg m =>
    simp only [step] at h
    split_ifs at h
    cases hr : threadpool_add_job σ.pool cb arg m with
    | abort => rw [hr] at h; cases h
    | fault => rw [hr] at h; cases h
    | wait =>
      rw [hr] at h
      simp only [Option.some.injEq] at h
      subst h
      exact Or.inl rfl
    | ret code pool ev =>
      by_cases hc : code = 0
      · subst hc
        exact Or.inr ⟨cb, arg, m, pool, ev, hr⟩
      · rw [hr] at h
        simp only [Option.some.injEq, if_neg hc] at h
        subst h
        exact Or.inl rfl
  | work i =>
    simp only [step] at h
    split_ifs at h
    cases hr : threadpool_function σ.pool with
    | fault => rw [hr] at h; cases h
    | wait =>
      rw [hr] at h
      simp only [Option.some.injEq] at h
      subst h
      exact Or.inl rfl
    | exit =>
      rw [hr] at h
      simp only [Option.some.injEq] at h
      subst h
      exact Or.inl rfl
    | run pjob pool ev =>
      rw [hr] at h
      simp only at h
      split at h
      · cases h
      · simp only [Option.some.injEq] at h
        subst h
        exact Or.inl rfl
  | finish i =>
    simp only [step] at h
    split_ifs at h
    cases hrun : σ.pthreads[i]? with
    | none => rw [hrun] at h; cases h
    | some w =>
      rw [hrun] at h
      cases w with
      | idle => cases h
      | exited => cases h
      | submitting p c a => cases h
      | running pjob =>
        simp only at h
        cases hj : run_job σ.pool.mem pjob with
        | none => rw [hj] at h; cases h
        | some r =>
          rw [hj] at h
          simp only [Option.some.injEq] at h
          subst h
          exact Or.inl rfl
  | destroy =>
    simp only [step] at h
    by_cases hret : σ.dpc = DestroyPc.returned
    · rw [if_pos hret] at h
      cases h
    rw [if_neg hret] at h
    cases hr : threadpool_destroy σ.pool with
    | ret code pool =>
      rw [hr] at h
      simp only [Option.some.injEq] at h
      subst h
      exact Or.inl rfl
    | wait1 pool =>
      rw [hr] at h
      split_ifs at h
      simp only [Option.some.injEq] at h
      subst h
      exact Or.inl rfl
    | wait2 pool =>
      rw [hr] at h
      split_ifs at h
      simp only [Option.some.injEq] at h
      subst h
      exact Or.inl rfl
    | unlocked pool ev =>
      rw [hr] at h
      split_ifs at h
      simp only [Option.some.injEq] at h
      subst h
      exact Or.inl rfl
  | destroy_wake =>
    simp only [step] at h
    cases hd : σ.dpc with
    | idle => rw [hd] at h; cases h
    | joining i => rw [hd] at h; cases h
    | returned => rw [hd] at h; cases h
    | wait1 =>
      rw [hd] at h
      simp only at h
      cases hr : destroy_first σ.pool with
      | ret code pool => rw [hr] at h; cases h
      | wait1 pool =>
        rw [hr] at h
        simp only [Option.some.injEq] at h
        subst h
        exact Or.inl rfl
      | wait2 pool =>
        rw [hr] at h
        simp only [Option.some.injEq] at h
        subst h
        exact Or.inl rfl
      | unlocked pool ev =>
        rw [hr] at h
        simp only [Option.some.injEq] at h
        subst h
        exact Or.inl rfl
    | wait2 =>
      rw [hd] at h
      simp only at h
      cases hr : destroy_second σ.pool with
      | ret code pool => rw [hr] at h; cases h
      | wait1 pool =>
        rw [hr] at h
        simp only [Option.some.injEq] at h
        subst h
        exact Or.inl rfl
      | wait2 pool =>
        rw [hr] at h
        simp only [Option.some.injEq] at h
        subst h
        exact Or.inl rfl
      | unlocked pool ev =>
        rw [hr] at h
        simp only [Option.some.injEq] at h
        subst h
        exact Or.inl rfl
  | join =>
    simp only [step] at h
    cases hd : σ.dpc with
    | idle => rw [hd] at h; cases h
    | wait1 => rw [hd] at h; cases h
    | wait2 => rw [hd] at h; cases h
    | returned => rw [hd] at h; cases h
    | joining i =>
      rw [hd] at h
      simp only at h
      split_ifs at h
      · simp only [Option.some.injEq] at h
        subst h
        exact Or.inl rfl
      · split at h
        · cases h
        · simp only [Option.some.injEq] at h
          subst h
          exact Or.inl rfl

/-- In a pool made with capacity 0 the count stays 0, which is the capacity,
so no pass of `threadpool_add_job` returns 0 and nothing is ever accepted. -/
theorem zero_capacity_inv (thread_num : Int) (e : InitEnv) (σ0 σ : Sys)
    (h : threadpool_init thread_num 0 e = some σ0) (hr : Reachable σ0 σ) :
    σ.pool.queue_cur_num = 0 ∧ σ.pool.queue_max_num = 0 ∧ σ.accepted = []
      ∧ ∀ cb arg m pool1 ev, threadpool_add_job σ.pool cb arg m ≠ .ret 0 pool1 ev := by
  have hbase : ∀ σ, Reachable σ0 σ → σ.pool.queue_cur_num = 0 ∧ σ.pool.queue_max_num = 0
      ∧ ∀ cb arg m pool1 ev, threadpool_add_job σ.pool cb arg m ≠ .ret 0 pool1 ev := by
    intro σ hr
    obtain ⟨q, hI⟩ := inv_reachable thread_num 0 e σ0 σ (le_refl 0) (by decide) h hr
    have h1 := (reachable_params σ0 σ hr).2
    have h2 := (init_params thread_num 0 e σ0 h).2
    have hmax : σ.pool.queue_max_num = 0 := h1.trans h2
    have h3 := hI.queue.count
    have h4 := hI.queue.le_max
    have hcur : σ.pool.queue_cur_num = 0 := by omega
    refine ⟨hcur, hmax, ?_⟩
    intro cb arg m pool1 ev hadd
    have := (add_job_ret_zero _ _ _ _ _ _ hadd).2.2.2.2.2
    exact this (hcur.trans hmax.symm)
  obtain ⟨h1, h2, h3⟩ := hbase σ hr
  refine ⟨h1, h2, ?_, h3⟩
  induction hr with
  | start =>
    unfold threadpool_init at h
    split_ifs at h
    simp only [Option.some.injEq] at h
    subst h
    rfl
  | next l hprev hs ih =>
    obtain ⟨_, _, hno⟩ := hbase _ hprev
    obtain ⟨i1, i2, i3⟩ := hbase _ hprev
    rcases step_accepted _ _ l hs with hacc | ⟨cb, arg, m, pool1, ev, hadd⟩
    · rw [hacc]
      exact ih i1 i2 i3
    · exact absurd hadd (hno cb arg m pool1 ev)

/-- C6, as the code has it: in a pool made by `threadpool_init(n, 0)` with
`n > 0` the count is 0, equal to the capacity, in every reachable state;
so a call of `threadpool_add_job` on the open pool waits, however many workers
are idle, no call ever returns 0, no job is ever accepted, and a call returns
only once a closing flag is set, with -1. -/
theorem zero_capacity_submit_never_succeeds (thread_num : Int) (e : InitEnv) (σ0 σ : Sys)
    (_hn : 0 < thread_num)
    (h : threadpool_init thread_num 0 e = some σ0) (hr : Reachable σ0 σ) :
    σ.pool.queue_cur_num = 0 ∧ σ.pool.queue_max_num = 0 ∧ σ.accepted = []
      ∧ (∀ cb arg m pool1 ev, threadpool_add_job σ.pool cb arg m ≠ .ret 0 pool1 ev)
      ∧ (∀ cb arg m, cb ≠ 0 → arg ≠ 0 → σ.pool.queue_close = 0 → σ.pool.pool_close = 0 →
          threadpool_add_job σ.pool cb arg m = .wait)
      ∧ (∀ cb arg m, cb ≠ 0 → arg ≠ 0 → (σ.pool.queue_close ≠ 0 ∨ σ.pool.pool_close ≠ 0) →
          threadpool_add_job σ.pool cb arg m = .ret (-1) σ.pool []) := by
  obtain ⟨h1, h2, h3, h4⟩ := zero_capacity_inv thread_num e σ0 σ h hr
  refine ⟨h1, h2, h3, h4, ?_, ?_⟩
  · intro cb arg m hcb harg hqc hpc
    exact add_job_full _ _ _ _ hcb harg hqc hpc (h1.trans h2.symm)
  · intro cb arg m hcb harg hc
    exact add_job_closed _ _ _ _ hcb harg hc

/-- An instance of C6 as amended: the pool `threadpool_init(1, 0)` itself. -/
theorem zero_capacity_submit_never_succeeds_witness :
    (threadpool_init 1 0 InitEnv.ok = some demo_zero ∧ Reachable demo_zero demo_zero)
      ∧ demo_zero.pool.queue_cur_num = 0 ∧ demo_zero.pool.queue_max_num = 0
      ∧ demo_zero.accepted = []
      ∧ (∀ cb arg m pool1 ev, threadpool_add_job demo_zero.pool cb arg m ≠ .ret 0 pool1 ev)
      ∧ (∀ cb arg m, cb ≠ 0 → arg ≠ 0 → demo_zero.pool.queue_close = 0 →
          demo_zero.pool.pool_close = 0 → threadpool_add_job demo_zero.pool cb arg m = .wait)
      ∧ (∀ cb arg m, cb ≠ 0 → arg ≠ 0 →
          (demo_zero.pool.queue_close ≠ 0 ∨ demo_zero.pool.pool_close ≠ 0) →
          threadpool_add_job demo_zero.pool cb arg m = .ret (-1) demo_zero.pool []) :=
  ⟨⟨demo_zero_eq, Reachable.start⟩,
    zero_capacity_submit_never_succeeds 1 InitEnv.ok demo_zero demo_zero (by decide)
      demo_zero_eq Reachable.start⟩

/-- C6 as stated fails: in the pool `threadpool_init(1, 0)`, with its one
worker idle, a submit waits, and no reachable state has a submit that
returns 0. -/
theorem zero_capacity_submit_counterexample :
    threadpool_init 1 0 InitEnv.ok = some demo_zero
      ∧ demo_zero.pthreads = [Worker.idle]
      ∧ threadpool_add_job demo_zero.pool 7 8 100 = .wait
      ∧ ¬ ∃ σ cb arg m pool1 ev, Reachable demo_zero σ
          ∧ threadpool_add_job σ.pool cb arg m = .ret 0 pool1 ev := by
  refine ⟨rfl, rfl, rfl, ?_⟩
  rintro ⟨σ, cb, arg, m, pool1, ev, hr, hadd⟩
  exact (zero_capacity_inv 1 InitEnv.ok demo_zero σ demo_zero_eq hr).2.2.2 cb arg m pool1 ev hadd

/-- Once `threadpool_destroy` has returned 0 the pool has been passed to
`free`: no action on it is defined any more. -/
theorem step_freed (σ : Sys) (l : Label) (hd : σ.dpc = DestroyPc.returned) :
    step σ l = none := by
  cases l <;> simp [step, hd]

/-- C7, as the code has it: a call of `threadpool_destroy` that finds
`queue_close` or `pool_close` set at entry returns -1 from the entry test with
every field of the pool and every job record as it was; while the first call
has not yet returned (the pool is not yet freed) the whole state stays the
same, so the workers, the heap and the first call's progress are untouched.
Once the first call has returned 0 the pool has been freed and no call on it
is defined, a further `threadpool_destroy` included. -/
theorem destroy_again_is_rejected (σ : Sys)
    (h : σ.pool.queue_close ≠ 0 ∨ σ.pool.pool_close ≠ 0) :
    threadpool_destroy σ.pool = .ret (-1) σ.pool
      ∧ (σ.dpc ≠ DestroyPc.returned → step σ .destroy = some σ)
      ∧ (σ.dpc = DestroyPc.returned → ∀ l, step σ l = none) := by
  refine ⟨destroy_closed σ.pool h, ?_, fun hd l => step_freed σ l hd⟩
  intro hd
  simp only [step]
  rw [if_neg hd, destroy_closed σ.pool h]

/-- An instance of C7 as amended: a second call while the first waits for the
queue of `demo_closing` to drain, and one while the first is in its join loop
in `demo_drained`; both leave the state as it is. -/
theorem destroy_again_is_rejected_witness :
    (demo_closing.pool.queue_close ≠ 0 ∧ demo_closing.dpc = DestroyPc.wait1
        ∧ demo_drained.pool.queue_close ≠ 0 ∧ demo_drained.dpc = DestroyPc.joining 0)
      ∧ threadpool_destroy demo_closing.pool = .ret (-1) demo_closing.pool
      ∧ step demo_closing .destroy = some demo_closing
      ∧ step demo_drained .destroy = some demo_drained :=
  ⟨by decide, (destroy_again_is_rejected demo_closing (Or.inl (by decide))).1,
    (destroy_again_is_rejected demo_closing (Or.inl (by decide))).2.1 (by decide),
    (destroy_again_is_rejected demo_drained (Or.inl (by decide))).2.1 (by decide)⟩

/-- C7 as stated fails for a pool on which destroy has finished: `demo_done`
is reachable, `threadpool_destroy` has returned 0 there and both flags are set
in what the freed memory last held, but the pool has been freed, so a second
call does not return -1 leaving the state as it is: it is a use of freed
memory, for which no step is defined. -/
theorem destroy_after_finish_counterexample :
    threadpool_init 2 1 InitEnv.ok = some demo_init
      ∧ Reachable demo_init demo_done
      ∧ demo_done.dpc = DestroyPc.returned
      ∧ (demo_done.pool.queue_close ≠ 0 ∧ demo_done.pool.pool_close ≠ 0)
      ∧ step demo_done .destroy = none
      ∧ step demo_done .destroy ≠ some demo_done :=
  ⟨demo_init_eq, demo_done_reachable, rfl, by decide, rfl, by decide⟩

/-- C8, as the code has it: `threadpool_add_job` (with a callback and an
argument that pass its asserts) returns only 0 or -1.  It returns -1 when it
rejects the submission because a closing flag is set and the same -1 when
`malloc` fails, leaving the pool as it was in both cases; it returns 0 only
from an open pool after a successful `malloc`, and does return 0 there when
the well-formed queue is not full. -/
theorem add_job_return_values (pool : threadpool) (cb arg : Nat)
    (hcb : cb ≠ 0) (harg : arg ≠ 0) :
    ((pool.queue_close ≠ 0 ∨ pool.pool_close ≠ 0) →
        ∀ m, threadpool_add_job pool cb arg m = .ret (-1) pool [])
      ∧ (pool.queue_close = 0 → pool.pool_close = 0 →
          pool.queue_cur_num ≠ pool.queue_max_num →
          threadpool_add_job pool cb arg 0 = .ret (-1) pool [])
      ∧ (∀ m code pool1 ev, threadpool_add_job pool cb arg m = .ret code pool1 ev →
          code = 0 ∨ code = -1)
      ∧ (∀ m pool1 ev, threadpool_add_job pool cb arg m = .ret 0 pool1 ev →
          m ≠ 0 ∧ pool.queue_close = 0 ∧ pool.pool_close = 0)
      ∧ (∀ m q, QueueOk pool q → pool.queue_close = 0 → pool.pool_close = 0 →
          pool.queue_cur_num ≠ pool.queue_max_num → m ≠ 0 → read pool.mem m = none →
          ∃ pool1 ev, threadpool_add_job pool cb arg m = .ret 0 pool1 ev) := by
  refine ⟨fun hc m => add_job_closed pool cb arg m hcb harg hc,
    fun hqc hpc hf => add_job_nomem pool cb arg hcb harg hqc hpc hf,
    fun m code pool1 ev hr => add_job_code pool pool1 cb arg m code ev hr, ?_, ?_⟩
  · intro m pool1 ev hr
    obtain ⟨_, _, h3, h4, h5, _⟩ := add_job_ret_zero pool pool1 cb arg m ev hr
    exact ⟨h3, h4, h5⟩
  · intro m q hq hqc hpc hf hm hfresh
    obtain ⟨pool1, ev, hr, _⟩ := add_job_ok pool q cb arg m hq hcb harg hqc hpc hf hm hfresh
    exact ⟨pool1, ev, hr⟩

/-- An instance of C8 as amended, at the open empty pool `demo_init`: a failed
allocation returns -1 and a successful one returns 0. -/
theorem add_job_return_values_witness :
    ((7 : Nat) ≠ 0 ∧ (8 : Nat) ≠ 0)
      ∧ threadpool_add_job demo_init.pool 7 8 0 = .ret (-1) demo_init.pool []
      ∧ ∃ pool1 ev, threadpool_add_job demo_init.pool 7 8 100 = .ret 0 pool1 ev :=
  ⟨by decide,
    (add_job_return_values demo_init.pool 7 8 (by decide) (by decide)).2.1 rfl rfl (by decide),
    (add_job_return_values demo_init.pool 7 8 (by decide) (by decide)).2.2.2.2 100 []
      (inv_init 2 1 InitEnv.ok demo_init (by decide) (by decide) demo_init_eq).queue
      rfl rfl (by decide) (by decide) rfl⟩

/-- C8 as stated fails: the rejection by the closing pool `demo_closing` and
the failed allocation (`malloc` returning `NULL`) on the open pool `demo_init`
return the same value, -1. -/
theorem add_job_return_values_counterexample :
    (demo_closing.pool.queue_close ≠ 0
        ∧ threadpool_add_job demo_closing.pool 7 8 102 = .ret (-1) demo_closing.pool [])
      ∧ (demo_init.pool.queue_close = 0 ∧ demo_init.pool.pool_close = 0
        ∧ demo_init.pool.queue_cur_num ≠ demo_init.pool.queue_max_num
        ∧ threadpool_add_job demo_init.pool 7 8 0 = .ret (-1) demo_init.pool []) := by
  decide

/-- C9: no action of `threadpool_add_job`, of the worker loop or of
`threadpool_destroy` clears a closing flag that is set, and the actions of
`threadpool_add_job` and of the worker loop leave both flags unchanged. -/
theorem closing_flags_monotone (σ σ1 : Sys) (l : Label) (h : step σ l = some σ1) :
    (σ.pool.queue_close ≠ 0 → σ1.pool.queue_close ≠ 0)
      ∧ (σ.pool.pool_close ≠ 0 → σ1.pool.pool_close ≠ 0)
      ∧ (l.by_destroy = false → σ1.pool.queue_close = σ.pool.queue_close
          ∧ σ1.pool.pool_close = σ.pool.pool_close) :=
  (step_frame σ σ1 l h).2.2

/-- An instance of C9: the dequeue by worker 1 that leads from `demo_busy` to `demo_taken`. -/
theorem closing_flags_monotone_witness :
    step demo_busy (.work 1) = some demo_taken
      ∧ (demo_busy.pool.queue_close ≠ 0 → demo_taken.pool.queue_close ≠ 0)
      ∧ (demo_busy.pool.pool_close ≠ 0 → demo_taken.pool.pool_close ≠ 0)
      ∧ ((Label.work 1).by_destroy = false →
          demo_taken.pool.queue_close = demo_busy.pool.queue_close
          ∧ demo_taken.pool.pool_close = demo_busy.pool.pool_close) :=
  ⟨rfl, closing_flags_monotone demo_busy demo_taken (.work 1) rfl⟩

/-- C10: in every reachable state `queue_cur_num` is the number of job records
linked from `head`, `tail` is the last of them (`NULL` when there is none),
and `head` is `NULL` iff `tail` is `NULL` iff `queue_cur_num` is 0. -/
theorem queue_links_match_count (thread_num queue_max_num : Int) (e : InitEnv)
    (σ0 σ : Sys) (_hn : 0 < thread_num) (hmax : 0 ≤ queue_max_num)
    (hint : queue_max_num ≤ INT_MAX)
    (h : threadpool_init thread_num queue_max_num e = some σ0) (hr : Reachable σ0 σ) :
    ∃ q, Linked σ.pool.mem σ.pool.head q
      ∧ σ.pool.queue_cur_num = q.length
      ∧ σ.pool.tail = q.getLastD 0
      ∧ (σ.pool.head = 0 ↔ σ.pool.tail = 0)
      ∧ (σ.pool.tail = 0 ↔ σ.pool.queue_cur_num = 0) := by
  obtain ⟨q, hI⟩ := inv_reachable thread_num queue_max_num e σ0 σ hmax hint h hr
  have hhead := Linked_head_null _ _ _ hI.queue.linked
  have hcnt : σ.pool.queue_cur_num = 0 ↔ q = [] := by
    rw [hI.queue.count, ← List.length_eq_zero]
    omega
  have htail : σ.pool.tail = 0 ↔ q = [] := by
    rw [hI.queue.tail_last]
    cases hq : q with
    | nil => simp
    | cons a r =>
      have hm := getLastD_mem a r
      have := (Linked_alloc _ _ _ hI.queue.linked _ (hq ▸ hm)).1
      rw [hq] at this
      constructor
      · intro h0
        exact absurd h0 this
      · intro h0
        cases h0
  exact ⟨q, hI.queue.linked, hI.queue.count, hI.queue.tail_last, hhead.trans htail.symm,
    htail.trans hcnt.symm⟩

/-- An instance of C10: the one-element queue of `demo_closing`. -/
theorem queue_links_match_count_witness :
    (threadpool_init 2 1 InitEnv.ok = some demo_init ∧ Reachable demo_init demo_closing)
      ∧ ∃ q, Linked demo_closing.pool.mem demo_closing.pool.head q
        ∧ demo_closing.pool.queue_cur_num = q.length
        ∧ demo_closing.pool.tail = q.getLastD 0
        ∧ (demo_closing.pool.head = 0 ↔ demo_closing.pool.tail = 0)
        ∧ (demo_closing.pool.tail = 0 ↔ demo_closing.pool.queue_cur_num = 0) :=
  ⟨⟨demo_init_eq, demo_closing_reachable⟩,
    queue_links_match_count 2 1 InitEnv.ok demo_init demo_closing (by decide) (by decide)
      (by decide) demo_init_eq demo_closing_reachable⟩

theorem demo_solo_queue : QueueOk demo_solo.pool [102] :=
  { max_nonneg := by decide
    max_le := by decide
    linked := ⟨rfl, by decide, ⟨7, 10, 0⟩, rfl, rfl⟩
    count := rfl
    tail_last := rfl
    le_max := by decide
    nodup := by decide }

/-- C11: on an open pool with a well-formed queue and
`queue_cur_num < queue_max_num`, a call of `threadpool_add_job` (callback and
argument passing its asserts) whose `malloc` succeeds returns 0; the new
record is linked after the records queued before, which keep their order and
their contents, it is the new `tail` and stores exactly the given callback and
argument; `queue_cur_num` grows by exactly 1 and `queue_max_num`,
`thread_num` and both flags stay as they were. -/
theorem add_job_appends_at_tail (pool : threadpool) (q : List Nat) (cb arg m : Nat)
    (hq : QueueOk pool q) (hcb : cb ≠ 0) (harg : arg ≠ 0)
    (hqc : pool.queue_close = 0) (hpc : pool.pool_close = 0)
    (hlt : pool.queue_cur_num < pool.queue_max_num)
    (hm : m ≠ 0) (hfresh : read pool.mem m = none) :
    ∃ pool1 ev, threadpool_add_job pool cb arg m = .ret 0 pool1 ev
      ∧ Linked pool1.mem pool1.head (q ++ [m])
      ∧ pool1.tail = m
      ∧ (q ++ [m]).map (job_of pool1.mem) = q.map (job_of pool.mem) ++ [(cb, arg)]
      ∧ read pool1.mem m = some ⟨cb, arg, 0⟩
      ∧ pool1.queue_cur_num = pool.queue_cur_num + 1
      ∧ pool1.queue_max_num = pool.queue_max_num
      ∧ pool1.thread_num = pool.thread_num
      ∧ pool1.queue_close = pool.queue_close
      ∧ pool1.pool_close = pool.pool_close := by
  obtain ⟨pool1, ev, hres, hq1, hcur, hjob, hnew, _, hqc1, hpc1, htn, hmx, _⟩ :=
    add_job_ok pool q cb arg m hq hcb harg hqc hpc (ne_of_lt hlt) hm hfresh
  refine ⟨pool1, ev, hres, hq1.linked, ?_, ?_, hnew, hcur, hmx, htn, hqc1, hpc1⟩
  · rw [hq1.tail_last, getLastD_snoc]
  · have hne : ∀ x ∈ q, job_of pool1.mem x = job_of pool.mem x := by
      intro x hx
      apply hjob
      intro e
      subst e
      have := (Linked_alloc _ _ _ hq.linked x hx).2
      rw [hfresh] at this
      cases this
    have hjm : job_of pool1.mem m = (cb, arg) := by
      unfold job_of
      rw [hnew]
    rw [List.map_append, map_job_of_congr _ _ _ hne, List.map_cons, List.map_nil, hjm]

/-- An instance of C11: job (7, 11) is submitted to `demo_solo`, whose queue
holds the record at 102. -/
theorem add_job_appends_at_tail_witness :
    (QueueOk demo_solo.pool [102] ∧ demo_solo.pool.queue_cur_num < demo_solo.pool.queue_max_num)
      ∧ ∃ pool1 ev, threadpool_add_job demo_solo.pool 7 11 103 = .ret 0 pool1 ev
        ∧ Linked pool1.mem pool1.head ([102] ++ [103])
        ∧ pool1.tail = 103
        ∧ ([102] ++ [103]).map (job_of pool1.mem)
            = [102].map (job_of demo_solo.pool.mem) ++ [(7, 11)]
        ∧ read pool1.mem 103 = some ⟨7, 11, 0⟩
        ∧ pool1.queue_cur_num = demo_solo.pool.queue_cur_num + 1
        ∧ pool1.queue_max_num = demo_solo.pool.queue_max_num
        ∧ pool1.thread_num = demo_solo.pool.thread_num
        ∧ pool1.queue_close = demo_solo.pool.queue_close
        ∧ pool1.pool_close = demo_solo.pool.pool_close :=
  ⟨⟨demo_solo_queue, by decide⟩,
    add_job_appends_at_tail demo_solo.pool [102] 7 11 103 demo_solo_queue (by decide)
      (by decide) rfl rfl (by decide) (by decide) rfl⟩

/-- C12: on an open pool whose queue is not full (so that `malloc` is
reached), a call of `threadpool_add_job` whose `malloc` fails returns the
non-zero value -1, issues no wake-up and leaves every field of the pool and
every job record as it was; a later call on that same pool whose `malloc`
succeeds returns 0 and links its record at the tail. -/
theorem add_job_alloc_failure_is_local (pool : threadpool) (cb arg : Nat)
    (hcb : cb ≠ 0) (harg : arg ≠ 0)
    (hqc : pool.queue_close = 0) (hpc : pool.pool_close = 0)
    (hne : pool.queue_cur_num ≠ pool.queue_max_num) :
    threadpool_add_job pool cb arg 0 = .ret (-1) pool []
      ∧ (-1 : Int) ≠ 0
      ∧ (∀ q cb1 arg1 m, QueueOk pool q → cb1 ≠ 0 → arg1 ≠ 0 → m ≠ 0 →
          read pool.mem m = none →
          ∃ pool1 ev, threadpool_add_job pool cb1 arg1 m = .ret 0 pool1 ev
            ∧ Linked pool1.mem pool1.head (q ++ [m])
            ∧ read pool1.mem m = some ⟨cb1, arg1, 0⟩
            ∧ pool1.queue_cur_num = pool.queue_cur_num + 1) := by
  refine ⟨add_job_nomem pool cb arg hcb harg hqc hpc hne, by decide, ?_⟩
  intro q cb1 arg1 m hq hcb1 harg1 hm hfresh
  obtain ⟨pool1, ev, hres, hq1, hcur, _, hnew, _⟩ :=
    add_job_ok pool q cb1 arg1 m hq hcb1 harg1 hqc hpc hne hm hfresh
  exact ⟨pool1, ev, hres, hq1.linked, hnew, hcur⟩

/-- An instance of C12: on `demo_solo` a submit whose `malloc` fails returns
-1 and the next submit, whose `malloc` returns 103, returns 0. -/
theorem add_job_alloc_failure_is_local_witness :
    (demo_solo.pool.queue_close = 0 ∧ demo_solo.pool.pool_close = 0
        ∧ demo_solo.pool.queue_cur_num ≠ demo_solo.pool.queue_max_num)
      ∧ threadpool_add_job demo_solo.pool 7 11 0 = .ret (-1) demo_solo.pool []
      ∧ ∃ pool1 ev, threadpool_add_job demo_solo.pool 7 11 103 = .ret 0 pool1 ev
          ∧ Linked pool1.mem pool1.head ([102] ++ [103])
          ∧ read pool1.mem 103 = some ⟨7, 11, 0⟩
          ∧ pool1.queue_cur_num = demo_solo.pool.queue_cur_num + 1 :=
  ⟨by decide,
    (add_job_alloc_failure_is_local demo_solo.pool 7 11 (by decide) (by decide) rfl rfl
      (by decide)).1,
    (add_job_alloc_failure_is_local demo_solo.pool 7 11 (by decide) (by decide) rfl rfl
      (by decide)).2.2 [102] 7 11 103 demo_solo_queue (by decide) (by decide) (by decide) rfl⟩

/-! ## Initialisation -/

theorem foldl_pthread_create (k : Nat) (σ : Sys) :
    ((List.range k).map InitOp.pthread_create).foldl init_step σ
      = { σ with pthreads := σ.pthreads ++ List.replicate k Worker.idle } := by
  induction k with
  | zero => simp
  | succ k ih =>
    rw [List.range_succ, List.map_append, List.foldl_append, ih]
    simp [init_step, List.replicate_succ']

/-- The statements of a call of `threadpool_init` in which nothing fails: the
stores and the initialisations first, then one `pthread_create` per worker. -/
theorem init_ops_ok (thread_num queue_max_num : Int) :
    threadpool_init_ops thread_num queue_max_num InitEnv.ok
      = [InitOp.malloc_pool, InitOp.set_thread_num thread_num,
          InitOp.set_queue_max_num queue_max_num, InitOp.set_queue_cur_num 0,
          InitOp.set_head 0, InitOp.set_tail 0, InitOp.mutex_init,
          InitOp.cond_init Cond.queue_empty, InitOp.cond_init Cond.queue_not_empty,
          InitOp.cond_init Cond.queue_not_full, InitOp.malloc_pthreads,
          InitOp.set_queue_close 0, InitOp.set_pool_close 0]
        ++ (List.range thread_num.toNat).map InitOp.pthread_create
        ++ [InitOp.return_pool] := by
  simp [threadpool_init_ops, InitEnv.ok]

/-- Running the statements of `threadpool_init` one by one on uninitialised
memory gives what `threadpool_init` returns, whatever was in the memory. -/
theorem init_run_eq (thread_num queue_max_num : Int) (e : InitEnv) (junk : threadpool) :
    init_run junk (threadpool_init_ops thread_num queue_max_num e)
      = threadpool_init thread_num queue_max_num e := by
  by_cases he : e = InitEnv.ok
  · subst he
    rw [init_ops_ok]
    unfold init_run
    rw [List.getLast?_concat, if_pos rfl]
    simp [List.foldl_append, foldl_pthread_create, init_step, init_blank, threadpool_init,
      InitEnv.ok]
  · obtain ⟨b1, b2, b3, b4, b5, b6⟩ := e
    unfold init_run threadpool_init_ops threadpool_init
    cases b1 <;> cases b2 <;> cases b3 <;> cases b4 <;> cases b5 <;> cases b6 <;>
      first
      | exact absurd rfl he
      | simp

/-- C13: for `thread_num > 0` and `queue_max_num >= 0`, a call of
`threadpool_init` in which no allocation and no initialisation of a primitive
fails returns a pool with the given `thread_num` and `queue_max_num`, an empty
queue (`queue_cur_num = 0`, `head = tail = NULL`, no job record), both closing
flags clear and exactly `thread_num` workers, each at the top of its run loop;
the result does not depend on what was in the memory `malloc` returned, and in
the order of the statements every store to a queue field or a flag and every
initialisation of the mutex and the condition variables comes before the
first `pthread_create`. -/
theorem init_gives_empty_open_pool (thread_num queue_max_num : Int)
    (hn : 0 < thread_num) (_hmax : 0 ≤ queue_max_num) :
    ∃ σ0, threadpool_init thread_num queue_max_num InitEnv.ok = some σ0
      ∧ (∀ junk, init_run junk (threadpool_init_ops thread_num queue_max_num InitEnv.ok)
          = some σ0)
      ∧ σ0.pool.thread_num = thread_num ∧ σ0.pool.queue_max_num = queue_max_num
      ∧ σ0.pool.queue_cur_num = 0 ∧ σ0.pool.head = 0 ∧ σ0.pool.tail = 0 ∧ σ0.pool.mem = []
      ∧ σ0.pool.queue_close = 0 ∧ σ0.pool.pool_close = 0
      ∧ (σ0.pthreads.length : Int) = thread_num
      ∧ (∀ w ∈ σ0.pthreads, w = Worker.idle)
      ∧ σ0.dpc = DestroyPc.idle
      ∧ ∃ pre, threadpool_init_ops thread_num queue_max_num InitEnv.ok
            = pre ++ (List.range thread_num.toNat).map InitOp.pthread_create
                ++ [InitOp.return_pool]
          ∧ (∀ i, InitOp.pthread_create i ∉ pre)
          ∧ InitOp.set_queue_cur_num 0 ∈ pre ∧ InitOp.set_head 0 ∈ pre
          ∧ InitOp.set_tail 0 ∈ pre
          ∧ InitOp.set_queue_close 0 ∈ pre ∧ InitOp.set_pool_close 0 ∈ pre
          ∧ InitOp.mutex_init ∈ pre ∧ InitOp.cond_init Cond.queue_empty ∈ pre
          ∧ InitOp.cond_init Cond.queue_not_empty ∈ pre
          ∧ InitOp.cond_init Cond.queue_not_full ∈ pre := by
  refine ⟨_, rfl, fun junk => init_run_eq thread_num queue_max_num InitEnv.ok junk,
    rfl, rfl, rfl, rfl, rfl, rfl, rfl, rfl, ?_, ?_, rfl, _, init_ops_ok thread_num queue_max_num,
    ?_, ?_⟩
  · show ((List.replicate thread_num.toNat Worker.idle).length : Int) = thread_num
    rw [List.length_replicate]
    omega
  · intro w hw
    exact List.eq_of_mem_replicate hw
  · intro i hi
    simp at hi
  · simp

/-- An instance of C13: `threadpool_init(2, 1)` returns `demo_init`. -/
theorem init_gives_empty_open_pool_witness :
    ((0 : Int) < 2 ∧ (0 : Int) ≤ 1)
      ∧ threadpool_init 2 1 InitEnv.ok = some demo_init
      ∧ ∃ σ0, threadpool_init 2 1 InitEnv.ok = some σ0
        ∧ (∀ junk, init_run junk (threadpool_init_ops 2 1 InitEnv.ok) = some σ0)
        ∧ σ0.pool.thread_num = 2 ∧ σ0.pool.queue_max_num = 1
        ∧ σ0.pool.queue_cur_num = 0 ∧ σ0.pool.head = 0 ∧ σ0.pool.tail = 0 ∧ σ0.pool.mem = []
        ∧ σ0.pool.queue_close = 0 ∧ σ0.pool.pool_close = 0
        ∧ (σ0.pthreads.length : Int) = 2
        ∧ (∀ w ∈ σ0.pthreads, w = Worker.idle)
        ∧ σ0.dpc = DestroyPc.idle
        ∧ ∃ pre, threadpool_init_ops 2 1 InitEnv.ok
              = pre ++ (List.range (2 : Int).toNat).map InitOp.pthread_create
                  ++ [InitOp.return_pool]
            ∧ (∀ i, InitOp.pthread_create i ∉ pre)
            ∧ InitOp.set_queue_cur_num 0 ∈ pre ∧ InitOp.set_head 0 ∈ pre
            ∧ InitOp.set_tail 0 ∈ pre
            ∧ InitOp.set_queue_close 0 ∈ pre ∧ InitOp.set_pool_close 0 ∈ pre
            ∧ InitOp.mutex_init ∈ pre ∧ InitOp.cond_init Cond.queue_empty ∈ pre
            ∧ InitOp.cond_init Cond.queue_not_empty ∈ pre
            ∧ InitOp.cond_init Cond.queue_not_full ∈ pre :=
  ⟨by decide, rfl, init_gives_empty_open_pool 2 1 (by decide) (by decide)⟩

/-! ## Submitting from inside a callback -/

theorem set_same (ws : List Worker) (i : Nat) (w : Worker) (h : ws[i]? = some w) :
    ws.set i w = ws := by
  induction ws generalizing i with
  | nil => rfl
  | cons x ws ih =>
    cases i with
    | zero =>
      simp only [List.getElem?_cons_zero, Option.some.injEq] at h
      subst h
      rfl
    | succ i =>
      simp only [List.getElem?_cons_succ] at h
      simp only [List.set_cons_succ, ih i h]

theorem mem_of_lookup (ws : List Worker) (i : Nat) (w : Worker) (h : ws[i]? = some w) :
    w ∈ ws := by
  induction ws generalizing i with
  | nil => simp at h
  | cons x ws ih =>
    cases i with
    | zero =>
      simp only [List.getElem?_cons_zero, Option.some.injEq] at h
      subst h
      exact List.mem_cons_self _ _
    | succ i =>
      simp only [List.getElem?_cons_succ] at h
      exact List.mem_cons_of_mem _ (ih i h)

/-- In an open pool whose queue is full and whose workers are all parked inside
a submit from their own job, no action of `threadpool_add_job` or of the
worker loop changes the state. -/
theorem blocked_stays (σ σ1 : Sys) (l : Label)
    (hqc : σ.pool.queue_close = 0) (hpc : σ.pool.pool_close = 0)
    (hfull : σ.pool.queue_cur_num = σ.pool.queue_max_num)
    (hall : ∀ w ∈ σ.pthreads, w.blocked_in_submit = true)
    (hl : l.by_destroy = false) (h : step σ l = some σ1) : σ1 = σ := by
  cases l with
  | add who cb arg m =>
    simp only [step] at h
    split_ifs at h with hr hc hf
    by_cases habort : cb = 0 ∨ arg = 0
    · rw [add_job_abort _ _ _ _ habort] at h
      cases h
    push_neg at habort
    rw [add_job_full _ _ _ _ habort.1 habort.2 hqc hpc hfull] at h
    simp only [Option.some.injEq] at h
    subst h
    cases who with
    | none => rfl
    | some i =>
      have hc1 : caller_ok σ.pthreads (some i) cb arg = true := by
        simpa using hc
      unfold caller_ok at hc1
      simp only at hc1
      cases hw : σ.pthreads[i]? with
      | none => rw [hw] at hc1; cases hc1
      | some w =>
        rw [hw] at hc1
        have hb := hall w (mem_of_lookup _ _ _ hw)
        cases w with
        | idle => cases hb
        | exited => cases hb
        | running p => cases hb
        | submitting p cb1 arg1 =>
          simp only [decide_eq_true_eq] at hc1
          obtain ⟨e1, e2⟩ := hc1
          subst e1
          subst e2
          simp only [park, hw, Option.some_bind, Worker.job?]
          rw [set_same _ _ _ hw]
  | work i =>
    simp only [step] at h
    split_ifs at h with hr hi
    have hidle : σ.pthreads[i]? = some Worker.idle := not_not.1 hi
    have hb := hall _ (mem_of_lookup _ _ _ hidle)
    cases hb
  | finish i =>
    simp only [step] at h
    split_ifs at h
    cases hrun : σ.pthreads[i]? with
    | none => rw [hrun] at h; cases h
    | some w =>
      rw [hrun] at h
      have hb := hall w (mem_of_lookup _ _ _ hrun)
      cases w with
      | idle => cases h
      | exited => cases h
      | submitting p c a => cases h
      | running pjob => cases hb
  | destroy => cases hl
  | destroy_wake => cases hl
  | join => cases hl

/-- A pass of `threadpool_add_job` issued from the callback that worker `i`
is running, on an open pool: it parks the worker when the queue is full and
returns 0 to the callback when it is not. -/
theorem callback_submit (σ : Sys) (q : List Nat) (i p cb arg m : Nat) (hI : Inv σ q)
    (hw : σ.pthreads[i]? = some (Worker.running p))
    (hcb : cb ≠ 0) (harg : arg ≠ 0)
    (hqc : σ.pool.queue_close = 0) (hpc : σ.pool.pool_close = 0)
    (hm : m ≠ 0) (hfresh : read σ.pool.mem m = none) :
    (σ.pool.queue_cur_num = σ.pool.queue_max_num →
        step σ (.add (some i) cb arg m)
          = some { σ with pthreads := σ.pthreads.set i (Worker.submitting p cb arg) })
      ∧ (σ.pool.queue_cur_num ≠ σ.pool.queue_max_num →
        ∃ σ1, step σ (.add (some i) cb arg m) = some σ1
          ∧ σ1.accepted = σ.accepted ++ [(cb, arg)]
          ∧ σ1.pool.queue_cur_num = σ.pool.queue_cur_num + 1
          ∧ σ1.pthreads = σ.pthreads) := by
  have hidle := FlagsOk_open σ q hI.flags hqc
  have hc : caller_ok σ.pthreads (some i) cb arg = true := by
    simp [caller_ok, hw]
  have hf : ¬ (m ≠ 0 ∧ (read σ.pool.mem m).isSome = true) := by
    rw [hfresh]
    simp
  constructor
  · intro hfull
    simp only [step]
    rw [if_neg (by rw [hidle]; decide), if_neg (by simp [hc]), if_neg hf,
      add_job_full _ _ _ _ hcb harg hqc hpc hfull]
    simp [park, hw, Worker.job?]
  · intro hne
    obtain ⟨pool1, ev, hres, _, hcur, _⟩ :=
      add_job_ok σ.pool q cb arg m hI.queue hcb harg hqc hpc hne hm hfresh
    refine ⟨{ σ with pool := pool1, pthreads := resume σ.pthreads (some i),
                     accepted := σ.accepted ++ [(cb, arg)] }, ?_, rfl, hcur, ?_⟩
    · simp only [step]
      rw [if_neg (by rw [hidle]; decide), if_neg (by simp [hc]), if_neg hf, hres]
      simp
    · simp only [resume, hw, Option.some_bind, Worker.job?]
      exact set_same _ _ _ hw

theorem demo_one_init_eq : threadpool_init 1 1 InitEnv.ok = some demo_one_init := rfl

theorem demo_nested_reachable : Reachable demo_one_init demo_nested :=
  reachable_run demo_one_init demo_nested
    [.add none 7 8 100, .work 0, .add (some 0) 7 9 101] rfl

theorem demo_stuck_reachable : Reachable demo_one_init demo_stuck :=
  reachable_trans _ _ _ demo_nested_reachable
    (reachable_run demo_nested demo_stuck [.add (some 0) 7 10 102] rfl)

/-- C14, as the code has it: a worker holds no lock while it runs a callback,
so the callback may call `threadpool_add_job` on the same open pool, and that
call is treated like any other: with a successful `malloc` it returns 0 when
the queue is not full, and it parks the worker in the wait loop when the queue
is full.  Once the pool is open, the queue full and every worker parked that
way, no action of `threadpool_add_job` or of the worker loop changes the
state. -/
theorem callback_submit_waits_when_full (thread_num queue_max_num : Int) (e : InitEnv)
    (σ0 σ : Sys) (i p cb arg m : Nat)
    (_hn : 0 < thread_num) (hmax : 0 < queue_max_num) (hint : queue_max_num ≤ INT_MAX)
    (h : threadpool_init thread_num queue_max_num e = some σ0) (hr : Reachable σ0 σ)
    (hw : σ.pthreads[i]? = some (Worker.running p))
    (hcb : cb ≠ 0) (harg : arg ≠ 0)
    (hqc : σ.pool.queue_close = 0) (hpc : σ.pool.pool_close = 0)
    (hm : m ≠ 0) (hfresh : read σ.pool.mem m = none) :
    (σ.pool.queue_cur_num ≠ σ.pool.queue_max_num →
        ∃ σ1, step σ (.add (some i) cb arg m) = some σ1
          ∧ σ1.accepted = σ.accepted ++ [(cb, arg)]
          ∧ σ1.pool.queue_cur_num = σ.pool.queue_cur_num + 1
          ∧ σ1.pthreads = σ.pthreads)
      ∧ (σ.pool.queue_cur_num = σ.pool.queue_max_num →
        step σ (.add (some i) cb arg m)
          = some { σ with pthreads := σ.pthreads.set i (Worker.submitting p cb arg) })
      ∧ (∀ σb l σ1, σb.pool.queue_close = 0 → σb.pool.pool_close = 0 →
          σb.pool.queue_cur_num = σb.pool.queue_max_num →
          (∀ w ∈ σb.pthreads, w.blocked_in_submit = true) →
          l.by_destroy = false → step σb l = some σ1 → σ1 = σb) := by
  obtain ⟨q, hI⟩ := inv_reachable thread_num queue_max_num e σ0 σ (le_of_lt hmax) hint h hr
  obtain ⟨h1, h2⟩ := callback_submit σ q i p cb arg m hI hw hcb harg hqc hpc hm hfresh
  exact ⟨h2, h1, fun σb l σ1 a b c d f g => blocked_stays σb σ1 l a b c d f g⟩

/-- An instance of C14 as amended: in `demo_nested` the callback of job (7, 8)
has filled the queue and its next submit parks the only worker. -/
theorem callback_submit_waits_when_full_witness :
    (threadpool_init 1 1 InitEnv.ok = some demo_one_init ∧ Reachable demo_one_init demo_nested
        ∧ demo_nested.pthreads[0]? = some (Worker.running 100)
        ∧ demo_nested.pool.queue_cur_num = demo_nested.pool.queue_max_num)
      ∧ step demo_nested (.add (some 0) 7 10 102)
          = some { demo_nested with
                   pthreads := demo_nested.pthreads.set 0 (Worker.submitting 100 7 10) } :=
  ⟨⟨demo_one_init_eq, demo_nested_reachable, rfl, rfl⟩,
    (callback_submit_waits_when_full 1 1 InitEnv.ok demo_one_init demo_nested 0 100 7 10 102
      (by decide) (by decide) (by decide) demo_one_init_eq demo_nested_reachable rfl
      (by decide) (by decide) rfl rfl (by decide) rfl).2.1 rfl⟩

/-- C14 as stated fails: with `thread_num = 1` and `queue_max_num = 1`, after
one job whose callback submits two further jobs, the reachable state
`demo_stuck` has the pool open and its only worker parked inside
`threadpool_add_job` called from the job it is executing; the queue is full,
so that call waits, and no action of `threadpool_add_job` or of the worker
loop changes the state. -/
theorem callback_submit_deadlock_counterexample :
    threadpool_init 1 1 InitEnv.ok = some demo_one_init
      ∧ Reachable demo_one_init demo_stuck
      ∧ (demo_stuck.pool.queue_close = 0 ∧ demo_stuck.pool.pool_close = 0)
      ∧ demo_stuck.pthreads = [Worker.submitting 100 7 10]
      ∧ (∀ w ∈ demo_stuck.pthreads, w.blocked_in_submit = true)
      ∧ threadpool_add_job demo_stuck.pool 7 10 102 = .wait
      ∧ (∀ l σ1, l.by_destroy = false → step demo_stuck l = some σ1 → σ1 = demo_stuck) :=
  ⟨demo_one_init_eq, demo_stuck_reachable, ⟨rfl, rfl⟩, rfl, by decide, rfl,
    fun l σ1 hl hs => blocked_stays demo_stuck σ1 l rfl rfl rfl (by decide) hl hs⟩

/-! ## The mutex during a worker iteration -/

theorem function_run_head (pool pool1 : threadpool) (pjob : Nat) (ev : List Wake)
    (h : threadpool_function pool = .run pjob pool1 ev) : pjob = pool.head := by
  unfold threadpool_function at h
  dsimp only at h
  split_ifs at h <;>
    first
    | (cases h; rfl)
    | (split at h
       · cases h
       · cases h; rfl)

theorem held_before_wakes (held : Bool) (ev : List Wake) (rest : List Op) :
    held_before held (ev.map Op.wake ++ rest)
      = ev.map (fun w => (Op.wake w, held)) ++ held_before held rest := by
  induction ev with
  | nil => rfl
  | cons w ev ih =>
    show (Op.wake w, held) :: held_before held (ev.map Op.wake ++ rest) = _
    rw [ih]
    rfl

/-- C15: in an iteration of `threadpool_function` that dequeues the job record
`pjob`, the operations are, in order: take the mutex, dequeue `pjob` (the
head of the queue) and issue the wake-ups with the mutex held, release the
mutex, then without the mutex call the callback stored in `pjob` on the
argument stored in `pjob` and free `pjob`; the mutex is not taken again
within the iteration. -/
theorem worker_runs_job_unlocked (pool pool1 : threadpool) (pjob : Nat) (ev : List Wake)
    (j : job) (hrun : threadpool_function pool = .run pjob pool1 ev)
    (hj : read pool.mem pjob = some j) :
    pjob = pool.head
      ∧ run_job pool1.mem pjob = some ((j.callback_function, j.arg), free_job pool.mem pjob)
      ∧ held_before false (Op.lock :: worker_pass_ops pool)
          = [(Op.lock, false), (Op.dequeue pjob, true)]
            ++ ev.map (fun w => (Op.wake w, true))
            ++ [(Op.unlock, true), (Op.call j.callback_function j.arg, false),
                (Op.free pjob, false)] := by
  obtain ⟨_, _, _, _, hmem⟩ := function_frame pool pool1 pjob ev hrun
  have hjob : run_job pool1.mem pjob
      = some ((j.callback_function, j.arg), free_job pool.mem pjob) := by
    unfold run_job
    rw [hmem, hj]
  refine ⟨function_run_head pool pool1 pjob ev hrun, hjob, ?_⟩
  unfold worker_pass_ops
  rw [hrun]
  simp only [hjob]
  show (Op.lock, false) :: (Op.dequeue pjob, true)
      :: held_before true (ev.map Op.wake ++ [Op.unlock] ++
          [Op.call j.callback_function j.arg, Op.free pjob]) = _
  rw [List.append_assoc, held_before_wakes]
  rfl

/-- An instance of C15: the pass in which a worker takes job (7, 9) off the
full queue of `demo_busy`. -/
theorem worker_runs_job_unlocked_witness :
    (threadpool_function demo_busy.pool = .run 101 demo_taken.pool
        [Wake.signal Cond.queue_empty, Wake.broadcast Cond.queue_not_full]
      ∧ read demo_busy.pool.mem 101 = some ⟨7, 9, 0⟩)
    ∧ held_before false (Op.lock :: worker_pass_ops demo_busy.pool)
        = [(Op.lock, false), (Op.dequeue 101, true),
            (Op.wake (Wake.signal Cond.queue_empty), true),
            (Op.wake (Wake.broadcast Cond.queue_not_full), true),
            (Op.unlock, true), (Op.call 7 9, false), (Op.free 101, false)] :=
  ⟨⟨rfl, rfl⟩,
    (worker_runs_job_unlocked demo_busy.pool demo_taken.pool 101
      [Wake.signal Cond.queue_empty, Wake.broadcast Cond.queue_not_full] ⟨7, 9, 0⟩
      rfl rfl).2.2⟩

/-! ## Wake-ups -/

theorem function_run_pre (pool pool1 : threadpool) (pjob : Nat) (ev : List Wake)
    (h : threadpool_function pool = .run pjob pool1 ev) :
    pool.pool_close = 0 ∧ pool.queue_cur_num ≠ 0 := by
  by_cases hpc : pool.pool_close = 0
  · refine ⟨hpc, fun h0 => ?_⟩
    rw [function_wait pool h0 hpc] at h
    cases h
  · rw [function_exit pool hpc] at h
    cases h

theorem function_wait_pre (pool : threadpool) (h : threadpool_function pool = .wait) :
    pool.queue_cur_num = 0 ∧ pool.pool_close = 0 := by
  by_contra hn
  unfold threadpool_function at h
  rw [if_neg hn] at h
  dsimp only at h
  split_ifs at h <;> split at h <;> cases h

theorem add_job_wait_pre (pool : threadpool) (cb arg m : Nat)
    (h : threadpool_add_job pool cb arg m = .wait) :
    pool.queue_cur_num = pool.queue_max_num ∧ pool.queue_close = 0 ∧ pool.pool_close = 0 := by
  unfold threadpool_add_job at h
  dsimp only at h
  split_ifs at h with h1 h2 h3 h4 h5 h6
  · push_neg at h2
    exact ⟨h2.1, h2.2.1, h2.2.2⟩
  · split at h <;> cases h

theorem add_job_ret_zero_shape (pool pool1 : threadpool) (cb arg m : Nat) (ev : List Wake)
    (h : threadpool_add_job pool cb arg m = .ret 0 pool1 ev) :
    pool1.queue_cur_num = wrap (pool.queue_cur_num + 1)
      ∧ ev = if pool.head = 0 then [Wake.broadcast Cond.queue_not_empty] else [] := by
  unfold threadpool_add_job at h
  dsimp only at h
  split_ifs at h with h1 h2 h3 h4 h5 h6
  · cases h
  · cases h
  · cases h
    exact ⟨rfl, by rw [if_pos h5]⟩
  · split at h
    · cases h
    · cases h
      exact ⟨rfl, by rw [if_neg h5]⟩

theorem mem_ite_singleton (w : Wake) (c : Prop) [Decidable c] :
    w ∈ (if c then [w] else []) ↔ c := by
  split_ifs with hc <;> simp [hc]

theorem not_full_mem (c1 c2 : Prop) [Decidable c1] [Decidable c2] :
    Wake.broadcast Cond.queue_not_full
        ∈ (if c1 then [Wake.signal Cond.queue_empty] else [])
          ++ (if c2 then [Wake.broadcast Cond.queue_not_full] else []) ↔ c2 := by
  split_ifs with h1 h2 <;> simp [*]

/-- C16: in every reachable state of a pool made with `queue_max_num >= 0`, a
worker's dequeue broadcasts `queue_not_full` if and only if the queue was full
before the dequeue and is one below full after it; so every dequeue after which
a submit that was waiting no longer has to wait issues the broadcast. -/
theorem dequeue_broadcasts_not_full (thread_num queue_max_num : Int) (e : InitEnv)
    (σ0 σ : Sys) (pjob : Nat) (pool1 : threadpool) (ev : List Wake)
    (hmax : 0 ≤ queue_max_num) (hint : queue_max_num ≤ INT_MAX)
    (h : threadpool_init thread_num queue_max_num e = some σ0) (hr : Reachable σ0 σ)
    (hrun : threadpool_function σ.pool = .run pjob pool1 ev) :
    (Wake.broadcast Cond.queue_not_full ∈ ev
        ↔ (σ.pool.queue_cur_num = σ.pool.queue_max_num
            ∧ pool1.queue_cur_num = pool1.queue_max_num - 1))
      ∧ pool1.queue_cur_num = σ.pool.queue_cur_num - 1
      ∧ (∀ cb arg m, threadpool_add_job σ.pool cb arg m = .wait →
          threadpool_add_job pool1 cb arg m ≠ .wait
            ∧ Wake.broadcast Cond.queue_not_full ∈ ev) := by
  obtain ⟨q, hI⟩ := inv_reachable thread_num queue_max_num e σ0 σ hmax hint h hr
  obtain ⟨hpc, hne⟩ := function_run_pre _ _ _ _ hrun
  obtain ⟨a, q1, j, pool1a, eva, _, _, hres, _, hcur, _, _, _, _, hmax1, hev⟩ :=
    function_ok σ.pool q hI.queue hpc hne
  rw [hres] at hrun
  cases hrun
  have hmem : Wake.broadcast Cond.queue_not_full ∈ ev
      ↔ σ.pool.queue_cur_num = σ.pool.queue_max_num := by
    rw [hev]
    exact not_full_mem _ _
  refine ⟨?_, hcur, ?_⟩
  · rw [hmem, hcur, hmax1]
    constructor
    · intro hf
      exact ⟨hf, by omega⟩
    · intro hf
      exact hf.1
  · intro cb arg m hw
    obtain ⟨hfull, _, _⟩ := add_job_wait_pre _ _ _ _ hw
    refine ⟨?_, hmem.2 hfull⟩
    intro hw1
    obtain ⟨hfull1, _, _⟩ := add_job_wait_pre _ _ _ _ hw1
    omega

/-- An instance of C16: the dequeue from the full queue of `demo_busy`. -/
theorem dequeue_broadcasts_not_full_witness :
    (threadpool_init 2 1 InitEnv.ok = some demo_init ∧ Reachable demo_init demo_busy
        ∧ threadpool_function demo_busy.pool = .run 101 demo_taken.pool
            [Wake.signal Cond.queue_empty, Wake.broadcast Cond.queue_not_full])
      ∧ (Wake.broadcast Cond.queue_not_full
            ∈ [Wake.signal Cond.queue_empty, Wake.broadcast Cond.queue_not_full]
          ↔ (demo_busy.pool.queue_cur_num = demo_busy.pool.queue_max_num
              ∧ demo_taken.pool.queue_cur_num = demo_taken.pool.queue_max_num - 1))
      ∧ demo_taken.pool.queue_cur_num = demo_busy.pool.queue_cur_num - 1
      ∧ (∀ cb arg m, threadpool_add_job demo_busy.pool cb arg m = .wait →
          threadpool_add_job demo_taken.pool cb arg m ≠ .wait
            ∧ Wake.broadcast Cond.queue_not_full
                ∈ [Wake.signal Cond.queue_empty, Wake.broadcast Cond.queue_not_full]) :=
  ⟨⟨demo_init_eq, demo_busy_reachable, rfl⟩,
    dequeue_broadcasts_not_full 2 1 InitEnv.ok demo_init demo_busy 101 demo_taken.pool _
      (by decide) (by decide) demo_init_eq demo_busy_reachable rfl⟩

/-- C17: in every reachable state a call of `threadpool_add_job` that returns 0
broadcasts `queue_not_empty` if and only if `head` was `NULL` before the
insertion, which is exactly when `queue_cur_num` was 0 and goes to 1; so every
insertion after which a worker that was waiting no longer has to wait issues
the broadcast. -/
theorem submit_broadcasts_not_empty (thread_num queue_max_num : Int) (e : InitEnv)
    (σ0 σ : Sys) (cb arg m : Nat) (pool1 : threadpool) (ev : List Wake)
    (hmax : 0 ≤ queue_max_num) (hint : queue_max_num ≤ INT_MAX)
    (h : threadpool_init thread_num queue_max_num e = some σ0) (hr : Reachable σ0 σ)
    (hadd : threadpool_add_job σ.pool cb arg m = .ret 0 pool1 ev) :
    (Wake.broadcast Cond.queue_not_empty ∈ ev ↔ σ.pool.head = 0)
      ∧ (σ.pool.head = 0 ↔ σ.pool.queue_cur_num = 0)
      ∧ pool1.queue_cur_num = σ.pool.queue_cur_num + 1
      ∧ (σ.pool.queue_cur_num = 0 ↔ pool1.queue_cur_num = 1)
      ∧ (threadpool_function σ.pool = .wait →
          threadpool_function pool1 ≠ .wait
            ∧ Wake.broadcast Cond.queue_not_empty ∈ ev) := by
  obtain ⟨q, hI⟩ := inv_reachable thread_num queue_max_num e σ0 σ hmax hint h hr
  obtain ⟨hcur1, hev⟩ := add_job_ret_zero_shape _ _ _ _ _ _ hadd
  obtain ⟨_, _, _, _, _, hne⟩ := add_job_ret_zero _ _ _ _ _ _ hadd
  have hc := hI.queue.count
  have hle := hI.queue.le_max
  have hmx := hI.queue.max_le
  have hcur : pool1.queue_cur_num = σ.pool.queue_cur_num + 1 := by
    rw [hcur1, wrap_id] <;> unfold INT_MIN INT_MAX at * <;> omega
  have hmem : Wake.broadcast Cond.queue_not_empty ∈ ev ↔ σ.pool.head = 0 := by
    rw [hev]
    exact mem_ite_singleton _ _
  have hhead : σ.pool.head = 0 ↔ σ.pool.queue_cur_num = 0 := by
    rw [Linked_head_null _ _ _ hI.queue.linked, hc, ← List.length_eq_zero]
    omega
  refine ⟨hmem, hhead, hcur, by omega, ?_⟩
  intro hw
  obtain ⟨h0, _⟩ := function_wait_pre _ hw
  refine ⟨?_, hmem.2 (hhead.2 h0)⟩
  intro hw1
  obtain ⟨h1, _⟩ := function_wait_pre _ hw1
  omega

/-- An instance of C17: the first submit to the empty pool `demo_init`. -/
theorem submit_broadcasts_not_empty_witness :
    (threadpool_init 2 1 InitEnv.ok = some demo_init ∧ Reachable demo_init demo_init)
      ∧ ∃ pool1, threadpool_add_job demo_init.pool 7 8 100
            = .ret 0 pool1 [Wake.broadcast Cond.queue_not_empty]
        ∧ (Wake.broadcast Cond.queue_not_empty ∈ [Wake.broadcast Cond.queue_not_empty]
            ↔ demo_init.pool.head = 0)
        ∧ (demo_init.pool.head = 0 ↔ demo_init.pool.queue_cur_num = 0)
        ∧ pool1.queue_cur_num = demo_init.pool.queue_cur_num + 1
        ∧ (demo_init.pool.queue_cur_num = 0 ↔ pool1.queue_cur_num = 1)
        ∧ (threadpool_function demo_init.pool = .wait →
            threadpool_function pool1 ≠ .wait
              ∧ Wake.broadcast Cond.queue_not_empty ∈ [Wake.broadcast Cond.queue_not_empty]) :=
  ⟨⟨demo_init_eq, Reachable.start⟩, _, rfl,
    submit_broadcasts_not_empty 2 1 InitEnv.ok demo_init demo_init 7 8 100 _ _
      (by decide) (by decide) demo_init_eq Reachable.start rfl⟩

/-! ## The second wait of `threadpool_destroy` -/

theorem destroy_first_eq (pool : threadpool) :
    destroy_first pool = destroy_first_simplified pool := by
  unfold destroy_first_simplified
  by_cases h : pool.queue_cur_num = 0
  · rw [destroy_first_done pool h, if_neg (by simp [h])]
  · rw [destroy_first_wait pool h, if_pos h]

theorem threadpool_destroy_eq (pool : threadpool) :
    threadpool_destroy pool = threadpool_destroy_simplified pool := by
  unfold threadpool_destroy threadpool_destroy_simplified
  rw [destroy_first_eq]

theorem destroy_first_simplified_cases (pool : threadpool) :
    (pool.queue_cur_num ≠ 0 ∧ destroy_first_simplified pool = .wait1 pool)
      ∨ (pool.queue_cur_num = 0 ∧ destroy_first_simplified pool
          = .unlocked { pool with pool_close := 1 }
              [Wake.broadcast Cond.queue_not_empty, Wake.broadcast Cond.queue_not_full]) := by
  unfold destroy_first_simplified
  by_cases h : pool.queue_cur_num = 0
  · exact Or.inr ⟨h, by rw [if_neg (by simp [h])]⟩
  · exact Or.inl ⟨h, by rw [if_pos h]⟩

theorem destroy_first_not_wait2 (pool p : threadpool) : destroy_first pool ≠ .wait2 p := by
  rw [destroy_first_eq]
  rcases destroy_first_simplified_cases pool with ⟨_, h⟩ | ⟨_, h⟩ <;> rw [h] <;> simp

theorem threadpool_destroy_not_wait2 (pool p : threadpool) :
    threadpool_destroy pool ≠ .wait2 p := by
  unfold threadpool_destroy
  split_ifs
  · simp
  · exact destroy_first_not_wait2 _ p

/-- When `threadpool_destroy` gets past its waits, the count was zero at the
moment it set `pool_close`. -/
theorem destroy_first_unlocked (pool p : threadpool) (ev : List Wake)
    (h : destroy_first pool = .unlocked p ev) :
    pool.queue_cur_num = 0 ∧ p.queue_cur_num = 0 ∧ p.pool_close = 1 := by
  rw [destroy_first_eq] at h
  rcases destroy_first_simplified_cases pool with ⟨_, h1⟩ | ⟨h0, h1⟩
  · rw [h1] at h
    cases h
  · rw [h1] at h
    cases h
    exact ⟨h0, h0, rfl⟩

/-- Outside the second wait, the simplified system takes the same steps. -/
theorem step_simplified_eq (σ : Sys) (l : Label) (hd : σ.dpc ≠ DestroyPc.wait2) :
    step_simplified σ l = step σ l := by
  cases l with
  | add who cb arg m => rfl
  | work i => rfl
  | finish i => rfl
  | join => rfl
  | destroy =>
    simp only [step_simplified, step]
    rw [← threadpool_destroy_eq]
    cases hr : threadpool_destroy σ.pool with
    | ret code pool => rfl
    | wait1 pool => rfl
    | unlocked pool ev => rfl
    | wait2 pool => exact absurd hr (threadpool_destroy_not_wait2 _ _)
  | destroy_wake =>
    simp only [step_simplified, step]
    cases hdpc : σ.dpc with
    | idle => rfl
    | joining i => rfl
    | returned => rfl
    | wait2 => exact absurd hdpc hd
    | wait1 =>
      simp only
      rw [← destroy_first_eq]
      cases hr : destroy_first σ.pool with
      | ret code pool => rfl
      | wait1 pool => rfl
      | unlocked pool ev => rfl
      | wait2 pool => exact absurd hr (destroy_first_not_wait2 _ _)

/-- No action leads into the second wait. -/
theorem step_not_wait2 (σ σ1 : Sys) (l : Label) (hd : σ.dpc ≠ DestroyPc.wait2)
    (h : step σ l = some σ1) : σ1.dpc ≠ DestroyPc.wait2 := by
  cases l with
  | add who cb arg m =>
    simp only [step] at h
    split_ifs at h
    cases hr : threadpool_add_job σ.pool cb arg m with
    | abort => rw [hr] at h; cases h
    | fault => rw [hr] at h; cases h
    | wait =>
      rw [hr] at h
      simp only [Option.some.injEq] at h
      subst h
      exact hd
    | ret code pool ev =>
      rw [hr] at h
      simp only [Option.some.injEq] at h
      subst h
      exact hd
  | work i =>
    simp only [step] at h
    split_ifs at h
    cases hr : threadpool_function σ.pool with
    | fault => rw [hr] at h; cases h
    | wait =>
      rw [hr] at h
      simp only [Option.some.injEq] at h
      subst h
      exact hd
    | exit =>
      rw [hr] at h
      simp only [Option.some.injEq] at h
      subst h
      exact hd
    | run pjob pool ev =>
      rw [hr] at h
      simp only at h
      split at h
      · cases h
      · simp only [Option.some.injEq] at h
        subst h
        exact hd
  | finish i =>
    simp only [step] at h
    split_ifs at h
    cases hrun : σ.pthreads[i]? with
    | none => rw [hrun] at h; cases h
    | some w =>
      rw [hrun] at h
      cases w with
      | idle => cases h
      | exited => cases h
      | submitting p c a => cases h
      | running pjob =>
        simp only at h
        cases hj : run_job σ.pool.mem pjob with
        | none => rw [hj] at h; cases h
        | some r =>
          rw [hj] at h
          simp only [Option.some.injEq] at h
          subst h
          exact hd
  | destroy =>
    simp only [step] at h
    by_cases hret : σ.dpc = DestroyPc.returned
    · rw [if_pos hret] at h
      cases h
    rw [if_neg hret] at h
    cases hr : threadpool_destroy σ.pool with
    | ret code pool =>
      rw [hr] at h
      simp only [Option.some.injEq] at h
      subst h
      exact hd
    | wait1 pool =>
      rw [hr] at h
      split_ifs at h
      simp only [Option.some.injEq] at h
      subst h
      simp
    | wait2 pool => exact absurd hr (threadpool_destroy_not_wait2 _ _)
    | unlocked pool ev =>
      rw [hr] at h
      split_ifs at h
      simp only [Option.some.injEq] at h
      subst h
      simp
  | destroy_wake =>
    simp only [step] at h
    cases hdpc : σ.dpc with
    | idle => rw [hdpc] at h; cases h
    | joining i => rw [hdpc] at h; cases h
    | returned => rw [hdpc] at h; cases h
    | wait2 => exact absurd hdpc hd
    | wait1 =>
      rw [hdpc] at h
      simp only at h
      cases hr : destroy_first σ.pool with
      | ret code pool => rw [hr] at h; cases h
      | wait1 pool =>
        rw [hr] at h
        simp only [Option.some.injEq] at h
        subst h
        simp
      | wait2 pool => exact absurd hr (destroy_first_not_wait2 _ _)
      | unlocked pool ev =>
        rw [hr] at h
        simp only [Option.some.injEq] at h
        subst h
        simp
  | join =>
    simp only [step] at h
    cases hdpc : σ.dpc with
    | idle => rw [hdpc] at h; cases h
    | wait1 => rw [hdpc] at h; cases h
    | wait2 => rw [hdpc] at h; cases h
    | returned => rw [hdpc] at h; cases h
    | joining i =>
      rw [hdpc] at h
      simp only at h
      split_ifs at h
      · simp only [Option.some.injEq] at h
        subst h
        simp
      · split at h
        · cases h
        · simp only [Option.some.injEq] at h
          subst h
          simp

theorem reachable_not_wait2 (σ0 σ : Sys) (h0 : σ0.dpc ≠ DestroyPc.wait2)
    (hr : Reachable σ0 σ) : σ.dpc ≠ DestroyPc.wait2 := by
  induction hr with
  | start => exact h0
  | next l _ hs ih => exact step_not_wait2 _ _ l ih hs

theorem reachable_to_simplified (σ0 σ : Sys) (h0 : σ0.dpc ≠ DestroyPc.wait2)
    (hr : Reachable σ0 σ) : ReachableSimplified σ0 σ := by
  induction hr with
  | start => exact ReachableSimplified.start
  | next l hprev hs ih =>
    refine ReachableSimplified.next l ih ?_
    rw [step_simplified_eq _ l (reachable_not_wait2 σ0 _ h0 hprev)]
    exact hs

theorem reachable_of_simplified (σ0 σ : Sys) (h0 : σ0.dpc ≠ DestroyPc.wait2)
    (hr : ReachableSimplified σ0 σ) : Reachable σ0 σ := by
  induction hr with
  | start => exact Reachable.start
  | next l _ hs ih =>
    refine Reachable.next l ih ?_
    rw [← step_simplified_eq _ l (reachable_not_wait2 σ0 _ h0 ih)]
    exact hs

/-- C18: the second wait loop of `threadpool_destroy` never runs its body: the
count is zero whenever `pool_close` is set, no pass ends in the second
`pthread_cond_wait`, and `threadpool_destroy` with the second loop and the
repeated `pool_close = 1` removed gives, from every pool state, the same
result and the same pool; so the system built on the simplified function
takes the same steps from every reachable state and reaches exactly the same
states, whatever the interleaving. -/
theorem second_wait_is_redundant (σ0 σ : Sys) (h0 : σ0.dpc = DestroyPc.idle) :
    (∀ pool, threadpool_destroy pool = threadpool_destroy_simplified pool)
      ∧ (∀ pool, destroy_first pool = destroy_first_simplified pool)
      ∧ (∀ pool p, destroy_first pool ≠ .wait2 p ∧ threadpool_destroy pool ≠ .wait2 p)
      ∧ (∀ pool p ev, destroy_first pool = .unlocked p ev →
          pool.queue_cur_num = 0 ∧ p.queue_cur_num = 0 ∧ p.pool_close = 1)
      ∧ (Reachable σ0 σ ↔ ReachableSimplified σ0 σ)
      ∧ (Reachable σ0 σ →
          σ.dpc ≠ DestroyPc.wait2 ∧ ∀ l, step_simplified σ l = step σ l) := by
  have h1 : σ0.dpc ≠ DestroyPc.wait2 := by
    rw [h0]
    decide
  refine ⟨threadpool_destroy_eq, destroy_first_eq,
    fun pool p => ⟨destroy_first_not_wait2 pool p, threadpool_destroy_not_wait2 pool p⟩,
    destroy_first_unlocked,
    ⟨reachable_to_simplified σ0 σ h1, reachable_of_simplified σ0 σ h1⟩, ?_⟩
  intro hr
  have h2 := reachable_not_wait2 σ0 σ h1 hr
  exact ⟨h2, fun l => step_simplified_eq σ l h2⟩

/-- An instance of C18: the run from `demo_init` to `demo_done`, in which
`threadpool_destroy` returns 0, is a run of the simplified system too. -/
theorem second_wait_is_redundant_witness :
    (demo_init.dpc = DestroyPc.idle ∧ Reachable demo_init demo_done)
      ∧ ReachableSimplified demo_init demo_done
      ∧ destroy_first demo_taken.pool = destroy_first_simplified demo_taken.pool :=
  ⟨⟨rfl, demo_done_reachable⟩,
    (second_wait_is_redundant demo_init demo_done rfl).2.2.2.2.1.1 demo_done_reachable,
    (second_wait_is_redundant demo_init demo_done rfl).2.1 demo_taken.pool⟩

/-! ## After `pool_close` -/

theorem function_exit_pre (pool : threadpool) (h : threadpool_function pool = .exit) :
    pool.pool_close ≠ 0 := by
  intro hpc
  by_cases h0 : pool.queue_cur_num = 0
  · rw [function_wait pool h0 hpc] at h
    cases h
  · unfold threadpool_function at h
    rw [if_neg (fun hh => h0 hh.1), if_neg (by simp [hpc])] at h
    dsimp only at h
    split_ifs at h <;> split at h <;> cases h

/-- C19: in every reachable state, `pool_close` set implies `queue_close` set
and an empty queue (`queue_cur_num == 0`, `head == NULL`); so a worker that
exits on seeing `pool_close` leaves no queued job behind, and the clean-up
loop at the end of `threadpool_destroy` finds `head == NULL` and frees no job
record. -/
theorem pool_close_means_drained (thread_num queue_max_num : Int) (e : InitEnv)
    (σ0 σ : Sys) (hmax : 0 ≤ queue_max_num) (hint : queue_max_num ≤ INT_MAX)
    (h : threadpool_init thread_num queue_max_num e = some σ0) (hr : Reachable σ0 σ) :
    (σ.pool.pool_close ≠ 0 →
        σ.pool.queue_close ≠ 0 ∧ σ.pool.queue_cur_num = 0 ∧ σ.pool.head = 0
          ∧ Linked σ.pool.mem σ.pool.head [])
      ∧ (threadpool_function σ.pool = .exit →
          σ.pool.queue_cur_num = 0 ∧ σ.pool.head = 0)
      ∧ (∀ i, σ.dpc = DestroyPc.joining i →
          σ.pool.head = 0
            ∧ free_residual σ.pool.mem.length σ.pool.head σ.pool.mem
                = some (0, σ.pool.mem)) := by
  obtain ⟨q, hI⟩ := inv_reachable thread_num queue_max_num e σ0 σ hmax hint h hr
  have hmain : σ.pool.pool_close ≠ 0 →
      σ.pool.queue_close ≠ 0 ∧ σ.pool.queue_cur_num = 0 ∧ σ.pool.head = 0
        ∧ Linked σ.pool.mem σ.pool.head [] := by
    intro hpc
    obtain ⟨hqc, hq⟩ := FlagsOk_pool_close σ q hI.flags hpc
    subst hq
    have hl := hI.queue.linked
    have hc := hI.queue.count
    exact ⟨hqc, by simpa using hc, hl, hl⟩
  refine ⟨hmain, ?_, ?_⟩
  · intro hexit
    obtain ⟨_, h1, h2, _⟩ := hmain (function_exit_pre _ hexit)
    exact ⟨h1, h2⟩
  · intro i hd
    have hf := hI.flags
    unfold FlagsOk at hf
    rw [hd] at hf
    obtain ⟨_, h1, h2, _⟩ := hmain hf.2.1
    refine ⟨h2, ?_⟩
    rw [h2, free_residual_null]

theorem demo_drained_reachable : Reachable demo_init demo_drained :=
  reachable_trans _ _ _ demo_closing_reachable
    (reachable_run demo_closing demo_drained [.work 1, .destroy_wake] rfl)

/-- An instance of C19: the state `demo_drained`, in which `pool_close` is set,
the destroying thread is in its join loop and two job records are still owned
by running callbacks. -/
theorem pool_close_means_drained_witness :
    (threadpool_init 2 1 InitEnv.ok = some demo_init ∧ Reachable demo_init demo_drained
        ∧ demo_drained.pool.pool_close ≠ 0)
      ∧ (demo_drained.pool.pool_close ≠ 0 →
          demo_drained.pool.queue_close ≠ 0 ∧ demo_drained.pool.queue_cur_num = 0
            ∧ demo_drained.pool.head = 0
            ∧ Linked demo_drained.pool.mem demo_drained.pool.head [])
      ∧ (threadpool_function demo_drained.pool = .exit →
          demo_drained.pool.queue_cur_num = 0 ∧ demo_drained.pool.head = 0)
      ∧ (∀ i, demo_drained.dpc = DestroyPc.joining i →
          demo_drained.pool.head = 0
            ∧ free_residual demo_drained.pool.mem.length demo_drained.pool.head
                demo_drained.pool.mem = some (0, demo_drained.pool.mem)) :=
  ⟨⟨demo_init_eq, demo_drained_reachable, by decide⟩,
    pool_close_means_drained 2 1 InitEnv.ok demo_init demo_drained (by decide) (by decide)
      demo_init_eq demo_drained_reachable⟩

end Threadpool
